import Mathlib

/-!
Verification of the `eule` Euler-diagram library.

A shallow embedding of the core decomposition engine from `src/eule/core.py`
(`euler_generator`, `euler_generator_worker`, `euler_generator_parallel`,
`euler_func`, `euler_parallel`), of the input validation from
`src/eule/validators.py`, and of the clustering helpers from
`src/eule/clustering.py` (`SetOverlapGraph._compute_overlap_matrix`,
`rebalance_clusters`, `ClusteredEuler.as_euler_dict`).

Modelling conventions:
* A Python dict is an insertion-ordered association list `List (K × β)` with
  (for actual dicts) pairwise-distinct keys; assignment to an existing key
  keeps its position, which `setValS` mirrors.
* Python's `deepcopy` of a pure value is the identity; mutation of the local
  working dict becomes explicit state threading.
* `operations.difference`/`intersection` convert to Python `set`s and back to
  lists, so the produced lists are duplicate-free with an iteration order
  fixed by hashing; we model them as order-preserving filters of the first
  argument (same membership, deterministic order).  No claim below depends on
  the internal order of an element list.
* The element lists of `numpy.unique` (used by `utils.uniq`) are sorted, so
  `uniq` is modelled as sort-after-dedup.
-/

set_option linter.unusedSectionVars false

namespace Eule

variable {K : Type} {E : Type} [LinearOrder K] [LinearOrder E]

/-- A family of named sets: the model of the Python dict `sets`
(`key -> list of elements`, insertion ordered). -/
abbrev Sets (K E : Type) := List (K × List E)

/-- One yielded pair `(region key tuple, elements)`. -/
abbrev RegionT (K E : Type) := List K × List E

/-- The keys of a dict, in insertion order. -/
def keysOf (s : Sets K E) : List K := s.map Prod.fst

/-- `sets_[k]` — dict lookup (first matching entry; `[]` for a missing key,
which only arises where the Python code cannot reach the lookup). -/
def lookupS : Sets K E → K → List E
  | [], _ => []
  | (k', v) :: t, k => if k = k' then v else lookupS t k

/-- `sets_[k] = v` — dict assignment to an existing key: replaces the first
matching entry in place (a missing key is never assigned in the modelled
code paths, so no entry is appended). -/
def setValS : Sets K E → K → List E → Sets K E
  | [], _, _ => []
  | (k', v) :: t, k, w => if k = k' then (k', w) :: t else (k', v) :: setValS t k w

/-- `utils.clear_sets` then `.keys()`: the keys whose value is non-empty,
in insertion order (`utils.cleared_set_keys`). -/
def clearedKeys (s : Sets K E) : List K :=
  (s.filter (fun p => p.2 ≠ [])).map Prod.fst

/-- `operations.difference`: elements of `l1` not in `l2` (Python builds
`list(set(l1) - set(l2))`; membership is what matters, see header). -/
def pydiff (l1 l2 : List E) : List E := l1.filter (fun e => e ∉ l2)

/-- `operations.intersection`: elements of `l1` also in `l2`. -/
def pyinter (l1 l2 : List E) : List E := l1.filter (fun e => e ∈ l2)

/-- `utils.ordered_tuplify` / Python `sorted`: ascending insertion sort. -/
def sortK (l : List K) : List K := l.insertionSort (· ≤ ·)

/-- `utils.uniq` = `list(numpy.unique(l))`: sorted deduplication. -/
def uniq (l : List E) : List E := (l.dedup).insertionSort (· ≤ ·)

/-- `validators.validate_euler_generator_input` on a dict input: if every
value is duplicate-free the dict is returned unchanged, otherwise a warning
is emitted (the `Bool`) and every value is deduplicated via `uniq`. -/
def validateDict (s : Sets K E) : Bool × Sets K E :=
  if s.all (fun p => p.2.Nodup) then (false, s)
  else (true, s.map (fun p => (p.1, uniq p.2)))

/-- `list(sets_.values())[0]` — the first dict value (the Python expression
would raise `IndexError` on an empty dict, which is unreachable: it is
guarded by `len(cleared_set_keys(sets_)) == 1`). -/
def firstVal : Sets K E → List E
  | [] => []
  | (_, v) :: _ => v

/-- The removal loop `for euler_set_key in ks: sets_[k] = difference(sets_[k], elems)`. -/
def removeFrom (st : Sets K E) (ks : List K) (elems : List E) : Sets K E :=
  ks.foldl (fun s k => setValS s k (pydiff (lookupS s k) elems)) st

/-- `∃ p ∈ out, e ∈ p.2`: element `e` has already been yielded. -/
def Yielded (out : List (RegionT K E)) (e : E) : Prop := ∃ p ∈ out, e ∈ p.2

instance (out : List (RegionT K E)) (e : E) : Decidable (Yielded out e) := by
  unfold Yielded; infer_instance

/-- The body of the inner loop of `euler_generator`
(`core.py` lines 65–99), for one `(euler_tuple, celements)` yielded by the
recursive call.  State: the working dict `sets_`, the `set_keys` variable,
and the accumulated yields.  `this_set` is the binding taken at line 57 — a
stale snapshot, since later assignments rebind `sets_[set_key]` to fresh
lists without mutating the captured one. -/
def innerStepSeq (set_key : K) (this_set : List E)
    (acc : Sets K E × List K × List (RegionT K E)) (item : RegionT K E) :
    Sets K E × List K × List (RegionT K E) :=
  let st := acc.1
  let out := acc.2.2
  let euler_tuple := item.1
  let celements := item.2
  -- comb_elems = difference(celements, this_set)
  let comb1 := pydiff celements this_set
  let st1 := if comb1 ≠ [] then removeFrom st (sortK euler_tuple) comb1 else st
  let out1 := if comb1 ≠ [] then out ++ [(sortK euler_tuple, comb1)] else out
  -- comb_elems = intersection(celements, sets_[set_key])
  let comb2 := pyinter celements (lookupS st1 set_key)
  let st2 :=
    if comb2 ≠ [] then
      let stA := removeFrom st1 (sortK (euler_tuple ++ [set_key])) comb2
      setValS stA set_key (pydiff (lookupS stA set_key) comb2)
    else st1
  let out2 :=
    if comb2 ≠ [] then out1 ++ [(sortK (euler_tuple ++ [set_key]), comb2)]
    else out1
  -- set_keys = cleared_set_keys(sets_)
  (st2, clearedKeys st2, out2)

/-- One iteration of the outer `for set_key in set_keys:` loop of
`euler_generator` (`core.py` lines 55–108), parameterised by the model `rec`
of the recursive call `euler_generator(csets)`. -/
def outerStepSeq (rec : Sets K E → List (RegionT K E))
    (acc : Sets K E × List K × List (RegionT K E)) (set_key : K) :
    Sets K E × List K × List (RegionT K E) :=
  let st := acc.1
  let curKeys := acc.2.1
  let out := acc.2.2
  let this_set := lookupS st set_key
  let other_keys := curKeys.filter (fun k => k ≠ set_key)
  if this_set = [] ∨ other_keys = [] then acc
  else
    let csets := other_keys.map (fun k => (k, lookupS st k))
    let sub := rec csets
    let acc2 := sub.foldl (innerStepSeq set_key this_set) (st, curKeys, out)
    let st2 := acc2.1
    let out2 := acc2.2.2
    let rest := lookupS st2 set_key
    let st3 := if rest ≠ [] then setValS st2 set_key [] else st2
    let out3 := if rest ≠ [] then out2 ++ [([set_key], rest)] else out2
    (st3, clearedKeys st3, out3)

/-- `euler_generator` (`core.py` lines 23–108), with a fuel parameter for the
introspective recursion; `fuel ≥ sets.length` always suffices (each recursive
call drops at least the current key).  The full yielded sequence is returned
as a list. -/
def eulerGen : Nat → Sets K E → List (RegionT K E)
  | 0, _ => []
  | fuel + 1, sets =>
    -- sets_ = deepcopy(sets); sets_ = validate_euler_generator_input(sets_)
    let sets1 := (validateDict sets).2
    -- set_keys = cleared_set_keys(sets_)
    let keys0 := clearedKeys sets1
    -- if len(set_keys) == 1: yield ((set_keys[0],), list(sets_.values())[0])
    let head : List (RegionT K E) :=
      match keys0 with
      | [k] => [([k], firstVal sets1)]
      | _ => []
    (keys0.foldl (outerStepSeq (eulerGen fuel)) (sets1, keys0, head)).2.2

/-- The fully-consumed generator `list(euler_generator(sets))`. -/
def eulerList (sets : Sets K E) : List (RegionT K E) :=
  eulerGen (sets.length + 1) sets

/-- Insert-or-overwrite for building a Python dict from a pair sequence:
an existing key keeps its position and gets the new value. -/
def pyDictIns [DecidableEq α] (acc : List (α × β)) (kv : α × β) : List (α × β) :=
  if acc.any (fun p => p.1 = kv.1) then
    acc.map (fun p => if p.1 = kv.1 then (p.1, kv.2) else p)
  else acc ++ [kv]

/-- `dict(pairs)` for a list of pairs. -/
def pyDict [DecidableEq α] (l : List (α × β)) : List (α × β) :=
  l.foldl pyDictIns []

/-- `euler_func(sets) = dict(euler_generator(sets))` (`core.py` 180–187);
also the value computed by `euler(sets)` whenever the clustering branch is
not taken (at most 30 sets and `use_clustering` unset). -/
def eulerFunc (sets : Sets K E) : List (RegionT K E) := pyDict (eulerList sets)

/-- The body of the inner loop of `euler_generator_worker`
(`core.py` lines 128–150).  Unlike the sequential engine, the intersection
at line 141 uses the stale `this_set` binding rather than `sets[set_key]`. -/
def innerStepWrk (set_key : K) (this_set : List E)
    (acc : Sets K E × List (RegionT K E)) (item : RegionT K E) :
    Sets K E × List (RegionT K E) :=
  let st := acc.1
  let res := acc.2
  let euler_tuple := item.1
  let celements := item.2
  let comb1 := pydiff celements this_set
  let st1 := if comb1 ≠ [] then removeFrom st (sortK euler_tuple) comb1 else st
  let res1 := if comb1 ≠ [] then res ++ [(sortK euler_tuple, comb1)] else res
  -- comb_elems = intersection(celements, this_set)
  let comb2 := pyinter celements this_set
  let st2 :=
    if comb2 ≠ [] then
      let stA := removeFrom st1 (sortK (euler_tuple ++ [set_key])) comb2
      setValS stA set_key (pydiff (lookupS stA set_key) comb2)
    else st1
  let res2 :=
    if comb2 ≠ [] then res1 ++ [(sortK (euler_tuple ++ [set_key]), comb2)]
    else res1
  (st2, res2)

/-- `euler_generator_worker((sets, set_keys, set_key))` (`core.py` 110–157).
Each worker receives its own pickled copy of the validated family, so the
mutations are worker-local; the returned value is its `results` list. -/
def workerRun (sets0 : Sets K E) (set_keys : List K) (set_key : K) :
    List (RegionT K E) :=
  let this_set := lookupS sets0 set_key
  if this_set ≠ [] ∧ set_keys.length = 1 then
    [(sortK [set_key], this_set)]
  else
    let other_keys := set_keys.filter (fun k => k ≠ set_key)
    if this_set = [] ∨ other_keys = [] then []
    else
      let csets := other_keys.map (fun k => (k, lookupS sets0 k))
      let sub := eulerList csets
      let fin := sub.foldl (innerStepWrk set_key this_set) (sets0, [])
      let rest := lookupS fin.1 set_key
      if rest ≠ [] then fin.2 ++ [([set_key], rest)] else fin.2

/-- `list(euler_generator_parallel(sets))` (`core.py` 159–174): validate,
short-circuit a single cleared key, otherwise fan one worker out per key on
the pristine validated family and concatenate the results. -/
def eulerParallelList (sets : Sets K E) : List (RegionT K E) :=
  let sets1 := (validateDict sets).2
  let set_keys := clearedKeys sets1
  match set_keys with
  | [k] => [([k], firstVal sets1)]
  | _ => (set_keys.map (fun k => workerRun sets1 set_keys k)).flatten

/-- `euler_parallel(sets) = dict(euler_generator_parallel(sets))`. -/
def eulerParallelFunc (sets : Sets K E) : List (RegionT K E) :=
  pyDict (eulerParallelList sets)

/-! ### Top-level input validation (`validators.py`, claim C8) -/

/-- The shape of a top-level Python argument to `euler_generator`:
a mapping, a sequence of sequences, or anything else. -/
inductive PyInput (K E : Type) where
  | dictIn (s : Sets K E)
  | listIn (l : List (List E))
  | otherIn
deriving DecidableEq

/-- The exceptions the validated entry can raise. -/
inductive PyErr where
  | typeError
  | attributeError
deriving DecidableEq

/-- `validate_euler_generator_input` (`validators.py` 9–57) at the top level:
anything that is neither a list nor a dict raises `TypeError`
("Ill-conditioned input…"); a list input passes the isinstance check but then
crashes with `AttributeError` at `sets_.values()` (a Python list has no
`.values`); a dict is checked for duplicate values and possibly deduplicated
with a warning (the `Bool`). -/
def validateTop : PyInput K E → Except PyErr (Bool × Sets K E)
  | .dictIn s => .ok (validateDict s)
  | .listIn _ => .error .attributeError
  | .otherIn => .error .typeError

/-- Full consumption of `euler_generator(input)` for an arbitrary top-level
input: the validation error (if any) surfaces on the first `next()` with
nothing yielded before it; otherwise the whole sequence is produced together
with the duplicate-warning flag. -/
def eulerGenTop (inp : PyInput K E) : Except PyErr (Bool × List (RegionT K E)) :=
  (validateTop inp).map (fun p => (p.1, eulerList p.2))

/-! ### Flatten merge (`clustering.py` `ClusteredEuler.as_euler_dict`, claim C5) -/

/-- A key of the flattened global diagram: either a plain region key or a
cluster-scoped `(cluster_id, region_key)` pair (distinct Python shapes:
a tuple of set names vs. an `(int, tuple)` pair). -/
inductive FlatKey (K : Type) where
  | plain (kt : List K)
  | scoped (cid : Nat) (kt : List K)
deriving DecidableEq

/-- One entry of the flatten loop of `as_euler_dict(flatten=True)`
(`clustering.py` 641–648): `if key_tuple not in flat: flat[key_tuple] =
elements else: flat[(cluster_id, key_tuple)] = elements`. -/
def flattenStep (flat : List (FlatKey K × List E))
    (p : (Nat × List K) × List E) : List (FlatKey K × List E) :=
  if flat.any (fun q => q.1 = FlatKey.plain p.1.2) then
    pyDictIns flat (FlatKey.scoped p.1.1 p.1.2, p.2)
  else
    pyDictIns flat (FlatKey.plain p.1.2, p.2)

/-- `ClusteredEuler.as_euler_dict(flatten=True)` (`clustering.py` 632–651):
fold the global `(cluster_id, region_key) → elements` diagram into a flat
dict; the first producer of a region key stores it unprefixed, any later
producer of the same key is stored under the cluster-prefixed form.
`Euler._merge_cluster_diagrams` (`core.py` 385–396) applies exactly the same
rule entry by entry. -/
def flattenMerge (g : List ((Nat × List K) × List E)) : List (FlatKey K × List E) :=
  g.foldl flattenStep []

/-! ### Cluster rebalancing (`clustering.py` `rebalance_clusters`, claim C6) -/

/-- First-occurrence deduplication: the iteration order of the keys of a
`defaultdict` populated in input order. -/
def firstOccur (l : List Nat) : List Nat :=
  l.foldl (fun acc a => if a ∈ acc then acc else acc ++ [a]) []

/-- `SpectralBisection.bisect` (`clustering.py` 201–218).  The `n ≤ 1` branch
is exact (`[set_keys[0]], []`; an empty graph would raise `IndexError`,
unreachable from `rebalance_clusters`).  For `n ≥ 2` the split is computed
from the Fiedler vector of a floating-point eigendecomposition, which a
shallow embedding cannot reproduce; it is abstracted as the parameter `eig`,
about which the theorems below assume nothing beyond what they state. -/
def spectralBisect (eig : Sets K E → List K × List K) (s : Sets K E) :
    List K × List K :=
  if s.length ≤ 1 then
    match keysOf s with
    | [] => ([], [])
    | k :: _ => ([k], [])
  else eig s

/-- One iteration of the `for cluster_id, keys in cluster_sets.items()` loop
of `rebalance_clusters`: clusters within `max_size` are copied; an oversized
cluster is bisected once, the first part keeping its id and the second
getting the next fresh id. -/
def rebalanceStep (eig : Sets K E → List K × List K) (sets : Sets K E)
    (max_size : Nat) (acc : List (K × Nat) × Nat) (p : Nat × List K) :
    List (K × Nat) × Nat :=
  let cluster_id := p.1
  let keys := p.2
  if keys.length ≤ max_size then
    (acc.1 ++ keys.map (fun k => (k, cluster_id)), acc.2)
  else
    let subsets := keys.map (fun k => (k, lookupS sets k))
    let parts := spectralBisect eig subsets
    (acc.1 ++ parts.1.map (fun k => (k, cluster_id))
           ++ parts.2.map (fun k => (k, acc.2)),
     acc.2 + 1)

/-- `rebalance_clusters(sets, clustering, max_size, min_size)`
(`clustering.py` 423–451): group keys by cluster id (first-appearance
order), keep clusters within `max_size`, split each oversized cluster once by
spectral bisection — the first part keeps the cluster id, the second gets a
fresh id starting from `max(clustering.values()) + 1`.  `min_size` is
accepted and ignored, as in the source. -/
def rebalance_clusters (eig : Sets K E → List K × List K) (sets : Sets K E)
    (clustering : List (K × Nat)) (max_size : Nat) (min_size : Nat) :
    List (K × Nat) :=
  let _ := min_size
  let cluster_ids := firstOccur (clustering.map Prod.snd)
  let cluster_sets :=
    cluster_ids.map (fun cid => (cid, (clustering.filter (fun p => p.2 = cid)).map Prod.fst))
  let next_id0 := (clustering.map Prod.snd).foldl max 0 + 1
  (cluster_sets.foldl (rebalanceStep eig sets max_size) ([], next_id0)).1

/-- The member keys of cluster `cid` in an assignment. -/
def clusterMembers (clustering : List (K × Nat)) (cid : Nat) : List K :=
  (clustering.filter (fun p => p.2 = cid)).map Prod.fst

/-! ### Overlap matrix (`clustering.py` `SetOverlapGraph._compute_overlap_matrix`,
claim C7) -/

/-- Functional model of a numpy matrix: entry update. -/
def matUpd (m : Nat → Nat → ℚ) (i j : Nat) (x : ℚ) : Nat → Nat → ℚ :=
  fun a b => if a = i ∧ b = j then x else m a b

/-- `len(set(a) & set(b))` — Python converts each value to a `set` first. -/
def interCard (a b : List E) : Nat := (a.toFinset ∩ b.toFinset).card

/-- `len(set(a) | set(b))`. -/
def unionCard (a b : List E) : Nat := (a.toFinset ∪ b.toFinset).card

/-- The body of the inner `for j in range(i, n)` loop of
`_compute_overlap_matrix`: `1` on the diagonal; for `i ≠ j` the Jaccard
ratio written symmetrically into `(i,j)` and `(j,i)` when the union is
non-empty, otherwise no write. -/
def overlapInner (vals : List (List E)) (i : Nat) (m : Nat → Nat → ℚ)
    (j : Nat) : Nat → Nat → ℚ :=
  if i = j then matUpd m i j 1
  else
    let si := vals.getD i []
    let sj := vals.getD j []
    if 0 < unionCard si sj then
      let jaccard : ℚ := (interCard si sj : ℚ) / (unionCard si sj : ℚ)
      matUpd (matUpd m i j jaccard) j i jaccard
    else m

/-- `SetOverlapGraph._compute_overlap_matrix` (`clustering.py` 45–65) over
exact rationals instead of IEEE floats: start from the zero matrix; for each
`i` and each `j ∈ [i, n)` run `overlapInner`.  `vals.getD i []` is
`set(self.sets[set_keys[i]])`: with the distinct keys of a dict, positional
access equals key access. -/
def computeOverlapMatrix (sets : Sets K E) : Nat → Nat → ℚ :=
  let vals := sets.map Prod.snd
  let n := sets.length
  (List.range n).foldl
    (fun m i => (List.range' i (n - i)).foldl (overlapInner vals i) m)
    (fun _ _ => 0)

/-- The value iteration `i` writes into the cells `(i, x)` and `(x, i)`. -/
def cellW (vals : List (List E)) (i x : Nat) : ℚ :=
  if i = x then 1
  else if 0 < unionCard (vals.getD i []) (vals.getD x []) then
    (interCard (vals.getD i []) (vals.getD x []) : ℚ) /
      (unionCard (vals.getD i []) (vals.getD x []) : ℚ)
  else 0

/-- The Jaccard similarity `|A∩B| / |A∪B|` of the values at positions `i`
and `j` (the spec's glossary definition), with the `0` convention for an
empty union coming from the ℚ rule `q / 0 = 0`. -/
def jaccardAt (sets : Sets K E) (i j : Nat) : ℚ :=
  let vals := sets.map Prod.snd
  (interCard (vals.getD i []) (vals.getD j []) : ℚ) /
    (unionCard (vals.getD i []) (vals.getD j []) : ℚ)

/-! ### Heap-instrumented engine (claim C9)

The Python runtime's mutable state is made explicit: a *store* is a list of
list-cells and a *reference* is an index into it.  Every expression that
builds a new list object in the traced code — `deepcopy`, `difference`,
`intersection`, `uniq`, the literal `[]` — allocates a fresh cell at the end
of the store, and a dict assignment `sets_[k] = …` rebinds the key to the
new reference; no operation ever writes into an existing cell, matching the
source, which reassigns dict entries but never mutates a list in place.
The caller's dict itself is read once (by `deepcopy`) and never written:
`euler_generator` only assigns into `sets_`.  Yields carry references.
The recursive generator deep-copies its input on first consumption and no
cell is mutated afterwards, so consuming it eagerly is observationally the
same as CPython's lazy interleaving (only the allocation order differs). -/

/-- The heap: list-cells addressed by position. -/
abbrev Store (E : Type) := List (List E)

/-- A dict whose values are references into the store. -/
abbrev HSets (K : Type) := List (K × Nat)

/-- Dereference (an out-of-range reference reads `[]`; unreachable from the
states the engine builds). -/
def readH (σ : Store E) (r : Nat) : List E := σ.getD r []

/-- Allocate a fresh cell holding `v`: the new store and the fresh
reference. -/
def allocH (σ : Store E) (v : List E) : Store E × Nat := (σ ++ [v], σ.length)

/-- `sets_[k]` as a reference. -/
def lookupR : HSets K → K → Nat
  | [], _ => 0
  | (k', r) :: t, k => if k = k' then r else lookupR t k

/-- `sets_[k] = r`: rebind an existing key to a new reference. -/
def setRefH : HSets K → K → Nat → HSets K
  | [], _, _ => []
  | (k', r') :: t, k, r =>
    if k = k' then (k', r) :: t else (k', r') :: setRefH t k r

/-- Rebuild a dict value by value, allocating `g` of each read value in a
fresh cell — the common shape of `deepcopy` and of the deduplicating path
of the validator. -/
def copyStepH (g : List E → List E) (a : Store E × HSets K) (p : K × Nat) :
    Store E × HSets K :=
  let al := allocH a.1 (g (readH a.1 p.2))
  (al.1, a.2 ++ [(p.1, al.2)])

def copyAllH (g : List E → List E) (σ : Store E) (hs : HSets K) :
    Store E × HSets K :=
  hs.foldl (copyStepH g) (σ, [])

/-- `deepcopy(sets)` (`core.py` line 43): a new dict, every value a fresh
cell holding a copy of the argument's value. -/
def deepcopyH (σ : Store E) (hs : HSets K) : Store E × HSets K :=
  copyAllH (fun l => l) σ hs

/-- `validate_euler_generator_input` over the store: the duplicate-free
path returns store and dict unchanged; the warning path builds a new dict
whose values are fresh `uniq` cells (`validators.py` lines 40–52). -/
def validateDictH (σ : Store E) (hs : HSets K) : Store E × HSets K :=
  if hs.all (fun p => (readH σ p.2).Nodup) then (σ, hs)
  else copyAllH uniq σ hs

/-- `cleared_set_keys(sets_)` over the store. -/
def clearedKeysH (σ : Store E) (hs : HSets K) : List K :=
  (hs.filter (fun p => readH σ p.2 ≠ [])).map Prod.fst

/-- `list(sets_.values())[0]` as a reference: the first value's list object
itself, not a copy. -/
def firstRef : HSets K → Nat
  | [] => 0
  | (_, r) :: _ => r

/-- One step of the removal loop: `sets_[k] = difference(sets_[k], elems)`,
allocating the difference list afresh and rebinding the key. -/
def removeStepH (elems : List E) (a : Store E × HSets K) (k : K) :
    Store E × HSets K :=
  let al := allocH a.1 (pydiff (readH a.1 (lookupR a.2 k)) elems)
  (al.1, setRefH a.2 k al.2)

/-- `for k in ks: sets_[k] = difference(sets_[k], elems)`. -/
def removeFromH (acc : Store E × HSets K) (ks : List K) (elems : List E) :
    Store E × HSets K :=
  ks.foldl (removeStepH elems) acc

/-- First half of the inner-loop body (`core.py` 68–81) over the store:
`difference` allocates its result whether or not it is empty, and a
non-empty result is yielded as its fresh reference. -/
def innerDiffH (this_ref : Nat)
    (st : Store E × HSets K × List (List K × Nat)) (item : List K × Nat) :
    Store E × HSets K × List (List K × Nat) :=
  let σ := st.1
  let comb1 := pydiff (readH σ item.2) (readH σ this_ref)
  let a1 := allocH σ comb1
  if comb1 ≠ [] then
    let rm := removeFromH (a1.1, st.2.1) (sortK item.1) comb1
    (rm.1, rm.2, st.2.2 ++ [(sortK item.1, a1.2)])
  else (a1.1, st.2.1, st.2.2)

/-- Second half of the inner-loop body (`core.py` 83–97) over the store:
the intersection with the current `sets_[set_key]`, again allocated fresh
and yielded by reference, followed by the removal loop and the extra
`sets_[set_key] = difference(…)` rebinding. -/
def innerInterH (set_key : K)
    (st : Store E × HSets K × List (List K × Nat)) (item : List K × Nat) :
    Store E × HSets K × List (List K × Nat) :=
  let σ := st.1
  let hs := st.2.1
  let comb2 := pyinter (readH σ item.2) (readH σ (lookupR hs set_key))
  let a2 := allocH σ comb2
  if comb2 ≠ [] then
    let rm := removeFromH (a2.1, hs) (sortK (item.1 ++ [set_key])) comb2
    let a3 := allocH rm.1 (pydiff (readH rm.1 (lookupR rm.2 set_key)) comb2)
    (a3.1, setRefH rm.2 set_key a3.2,
      st.2.2 ++ [(sortK (item.1 ++ [set_key]), a2.2)])
  else (a2.1, hs, st.2.2)

/-- The inner-loop body over the store (cf. `innerStepSeq`): both halves,
then `set_keys = cleared_set_keys(sets_)`. -/
def innerStepH (set_key : K) (this_ref : Nat)
    (acc : Store E × HSets K × List K × List (List K × Nat))
    (item : List K × Nat) :
    Store E × HSets K × List K × List (List K × Nat) :=
  let s1 := innerDiffH this_ref (acc.1, acc.2.1, acc.2.2.2) item
  let s2 := innerInterH set_key s1 item
  (s2.1, s2.2.1, clearedKeysH s2.1 s2.2.1, s2.2.2)

/-- The tail of an outer-loop iteration (`core.py` 100–108): if
`sets_[set_key]` is non-empty, yield the remaining elements — the list
object `sets_[set_key]` itself, by reference — then rebind
`sets_[set_key] = []` to a freshly allocated empty cell; finally
`set_keys = cleared_set_keys(sets_)`. -/
def outerTailH (set_key : K)
    (acc2 : Store E × HSets K × List K × List (List K × Nat)) :
    Store E × HSets K × List K × List (List K × Nat) :=
  let σ2 := acc2.1
  let hs2 := acc2.2.1
  let out2 := acc2.2.2.2
  let rest := readH σ2 (lookupR hs2 set_key)
  let s3 :=
    if rest ≠ [] then
      let a := allocH σ2 []
      (a.1, setRefH hs2 set_key a.2, out2 ++ [([set_key], lookupR hs2 set_key)])
    else (σ2, hs2, out2)
  (s3.1, s3.2.1, clearedKeysH s3.1 s3.2.1, s3.2.2)

/-- One outer-loop iteration over the store (cf. `outerStepSeq`):
`this_ref` is the reference snapshot `this_set = sets_[set_key]`, the
recursive call runs on a dict `csets` sharing the current references, and
the iteration ends with `outerTailH`. -/
def outerStepH (rec : Store E → HSets K → Store E × List (List K × Nat))
    (acc : Store E × HSets K × List K × List (List K × Nat)) (set_key : K) :
    Store E × HSets K × List K × List (List K × Nat) :=
  let σ := acc.1
  let hs := acc.2.1
  let curKeys := acc.2.2.1
  let out := acc.2.2.2
  let this_ref := lookupR hs set_key
  let other_keys := curKeys.filter (fun k => k ≠ set_key)
  if readH σ this_ref = [] ∨ other_keys = [] then acc
  else
    let csets := other_keys.map (fun k => (k, lookupR hs k))
    let sub := rec σ csets
    outerTailH set_key
      (sub.2.foldl (innerStepH set_key this_ref) (sub.1, hs, curKeys, out))

/-- `euler_generator` over the store (`core.py` 23–108): deep copy, then
validation, then the singleton branch and the outer loop, with the same
fuel discipline as `eulerGen`.  Yields are `(region key, reference)`
pairs; a yield's elements-list is `readH` of its reference in the final
store. -/
def eulerGenH : Nat → Store E → HSets K → Store E × List (List K × Nat)
  | 0, σ, _ => (σ, [])
  | fuel + 1, σ, hs =>
    let d := deepcopyH σ hs
    let v := validateDictH d.1 d.2
    let σ1 := v.1
    let hs1 := v.2
    let keys0 := clearedKeysH σ1 hs1
    let head : List (List K × Nat) :=
      match keys0 with
      | [k] => [([k], firstRef hs1)]
      | _ => []
    let r := keys0.foldl (outerStepH (eulerGenH fuel)) (σ1, hs1, keys0, head)
    (r.1, r.2.2.2)

/-- `list(euler_generator(sets))` over the store. -/
def eulerListH (σ : Store E) (hs : HSets K) : Store E × List (List K × Nat) :=
  eulerGenH (hs.length + 1) σ hs

/-! ### Well-formedness of a dict of sets -/

/-- The keys of a Python dict are pairwise distinct. -/
def KeysND (s : Sets K E) : Prop := (keysOf s).Nodup

/-- Every value is duplicate-free (the validated state; `validateDict` is the
identity on such inputs). -/
def ValsND (s : Sets K E) : Prop := ∀ p ∈ s, (p.2 : List E).Nodup

/-! ### Basic dictionary lemmas -/

theorem lookupS_eq_nil_of_not_mem (s : Sets K E) (k : K) (h : k ∉ keysOf s) :
    lookupS s k = [] := by
  induction s with
  | nil => rfl
  | cons p t ih =>
    simp only [keysOf, List.map_cons, List.mem_cons, not_or] at h
    obtain ⟨p1, p2⟩ := p
    simp only [lookupS, if_neg h.1]
    exact ih h.2

theorem mem_keys_of_lookupS_ne_nil {s : Sets K E} {k : K}
    (h : lookupS s k ≠ []) : k ∈ keysOf s := by
  by_contra hk
  exact h (lookupS_eq_nil_of_not_mem s k hk)

theorem lookupS_mem_or (s : Sets K E) (k : K) :
    lookupS s k = [] ∨ (k, lookupS s k) ∈ s := by
  induction s with
  | nil => exact Or.inl rfl
  | cons p t ih =>
    obtain ⟨p1, p2⟩ := p
    by_cases hk : k = p1
    · subst hk
      simp [lookupS]
    · simp only [lookupS, if_neg hk]
      rcases ih with h | h
      · exact Or.inl h
      · exact Or.inr (List.mem_cons_of_mem _ h)

theorem lookupS_nodup {s : Sets K E} (hv : ValsND s) (k : K) :
    (lookupS s k).Nodup := by
  rcases lookupS_mem_or s k with h | h
  · simp [h]
  · exact hv _ h

theorem mem_lookupS_iff {s : Sets K E} (hnd : KeysND s) {k : K} {e : E} :
    e ∈ lookupS s k ↔ ∃ v, (k, v) ∈ s ∧ e ∈ v := by
  induction s with
  | nil => simp [lookupS]
  | cons p t ih =>
    obtain ⟨p1, p2⟩ := p
    have hnd' : KeysND t := (List.nodup_cons.mp hnd).2
    have hp1 : p1 ∉ keysOf t := (List.nodup_cons.mp hnd).1
    by_cases hk : k = p1
    · subst hk
      simp only [lookupS, if_pos rfl]
      constructor
      · intro he
        exact ⟨p2, List.mem_cons_self _ _, he⟩
      · rintro ⟨v, hv, he⟩
        rcases List.mem_cons.mp hv with h | h
        · cases h; exact he
        · exact absurd (List.mem_map_of_mem Prod.fst h) hp1
    · simp only [lookupS, if_neg hk, ih hnd']
      constructor
      · rintro ⟨v, hv, he⟩
        exact ⟨v, List.mem_cons_of_mem _ hv, he⟩
      · rintro ⟨v, hv, he⟩
        rcases List.mem_cons.mp hv with h | h
        · exact absurd (congrArg Prod.fst h) hk
        · exact ⟨v, h, he⟩

theorem keysOf_setValS (s : Sets K E) (k : K) (w : List E) :
    keysOf (setValS s k w) = keysOf s := by
  induction s with
  | nil => rfl
  | cons p t ih =>
    obtain ⟨p1, p2⟩ := p
    by_cases hk : k = p1 <;> simp [setValS, hk, keysOf] at ih ⊢ <;> simp [ih]

theorem lookupS_setValS_self (s : Sets K E) (k : K) (w : List E)
    (h : k ∈ keysOf s) : lookupS (setValS s k w) k = w := by
  induction s with
  | nil => simp [keysOf] at h
  | cons p t ih =>
    obtain ⟨p1, p2⟩ := p
    by_cases hk : k = p1
    · simp [setValS, hk, lookupS]
    · simp only [keysOf, List.map_cons, List.mem_cons] at h
      rcases h with h | h
      · exact absurd h hk
      · simp only [setValS, if_neg hk, lookupS, if_neg hk]
        exact ih h

theorem setValS_of_not_mem (s : Sets K E) (k : K) (w : List E)
    (h : k ∉ keysOf s) : setValS s k w = s := by
  induction s with
  | nil => rfl
  | cons p t ih =>
    obtain ⟨p1, p2⟩ := p
    simp only [keysOf, List.map_cons, List.mem_cons, not_or] at h
    simp only [setValS, if_neg h.1]
    rw [ih h.2]

theorem lookupS_setValS_of_ne (s : Sets K E) {k k' : K} (w : List E)
    (h : k' ≠ k) : lookupS (setValS s k w) k' = lookupS s k' := by
  induction s with
  | nil => rfl
  | cons p t ih =>
    obtain ⟨p1, p2⟩ := p
    by_cases hk : k = p1
    · subst hk
      simp [setValS, lookupS, if_neg h]
    · by_cases hk' : k' = p1 <;> simp [setValS, if_neg hk, lookupS, hk', ih]

theorem valsND_setValS {s : Sets K E} (hv : ValsND s) {k : K} {w : List E}
    (hw : w.Nodup) : ValsND (setValS s k w) := by
  induction s with
  | nil => exact hv
  | cons p t ih =>
    obtain ⟨p1, p2⟩ := p
    intro q hq
    by_cases hk : k = p1
    · simp only [setValS, if_pos hk, List.mem_cons] at hq
      rcases hq with h | h
      · cases h; exact hw
      · exact hv q (List.mem_cons_of_mem _ h)
    · simp only [setValS, if_neg hk, List.mem_cons] at hq
      rcases hq with h | h
      · cases h; exact hv _ (List.mem_cons_self _ _)
      · exact ih (fun r hr => hv r (List.mem_cons_of_mem _ hr)) q h

theorem clearedKeys_cons (p : K × List E) (t : Sets K E) :
    clearedKeys (p :: t) =
      if p.2 = [] then clearedKeys t else p.1 :: clearedKeys t := by
  by_cases hv : p.2 = [] <;> simp [clearedKeys, List.filter_cons, hv]

theorem clearedKeys_subset_keys {s : Sets K E} {k : K}
    (h : k ∈ clearedKeys s) : k ∈ keysOf s := by
  simp only [clearedKeys, List.mem_map, List.mem_filter] at h
  obtain ⟨q, ⟨hq, _⟩, rfl⟩ := h
  exact List.mem_map_of_mem Prod.fst hq

theorem mem_clearedKeys_iff {s : Sets K E} (hnd : KeysND s) (k : K) :
    k ∈ clearedKeys s ↔ lookupS s k ≠ [] := by
  induction s with
  | nil => simp [clearedKeys, lookupS]
  | cons p t ih =>
    obtain ⟨p1, p2⟩ := p
    have hnd' : KeysND t := (List.nodup_cons.mp hnd).2
    have hp1 : p1 ∉ keysOf t := (List.nodup_cons.mp hnd).1
    rw [clearedKeys_cons]
    by_cases hk : k = p1
    · subst hk
      have hlt : lookupS t k = [] := lookupS_eq_nil_of_not_mem t k hp1
      by_cases hv : p2 = []
      · simp only [hv, if_pos rfl, lookupS, if_pos rfl]
        constructor
        · intro h
          exact absurd (clearedKeys_subset_keys h) hp1
        · intro h
          exact absurd rfl h
      · simp [hv, lookupS]
    · by_cases hv : p2 = [] <;>
        simp only [hv, if_pos, if_neg, lookupS, if_neg hk] <;>
        simp [hk, ih hnd', hv]

theorem clearedKeys_nodup {s : Sets K E} (hnd : KeysND s) :
    (clearedKeys s).Nodup := by
  have h : List.Sublist (clearedKeys s) (keysOf s) := by
    simpa [clearedKeys, keysOf] using (List.filter_sublist s).map Prod.fst
  exact h.nodup hnd

theorem validateDict_of_valsND {s : Sets K E} (hv : ValsND s) :
    validateDict s = (false, s) := by
  unfold validateDict
  rw [if_pos]
  simp only [List.all_eq_true, decide_eq_true_eq]
  exact hv

/-! ### Lemmas about the removal loop -/

theorem keysOf_removeFrom (st : Sets K E) (ks : List K) (elems : List E) :
    keysOf (removeFrom st ks elems) = keysOf st := by
  induction ks generalizing st with
  | nil => rfl
  | cons k t ih =>
    simp only [removeFrom, List.foldl_cons] at ih ⊢
    rw [ih, keysOf_setValS]

theorem mem_lookupS_removeFrom (st : Sets K E) (ks : List K) (elems : List E)
    (k : K) (e : E) :
    e ∈ lookupS (removeFrom st ks elems) k ↔
      e ∈ lookupS st k ∧ ¬(k ∈ ks ∧ e ∈ elems) := by
  induction ks generalizing st with
  | nil => simp [removeFrom]
  | cons k0 t ih =>
    simp only [removeFrom, List.foldl_cons] at ih ⊢
    rw [ih]
    by_cases hk : k = k0
    · subst hk
      by_cases hmem : k ∈ keysOf st
      · rw [lookupS_setValS_self st k _ hmem]
        simp only [pydiff, List.mem_filter, decide_eq_true_eq]
        constructor
        · rintro ⟨⟨h1, h2⟩, _⟩
          exact ⟨h1, fun hc => h2 hc.2⟩
        · rintro ⟨h1, h2⟩
          exact ⟨⟨h1, fun hc => h2 ⟨List.mem_cons_self _ _, hc⟩⟩,
            fun hc => h2 ⟨List.mem_cons_self _ _, hc.2⟩⟩
      · rw [setValS_of_not_mem st k _ hmem]
        rw [lookupS_eq_nil_of_not_mem st k hmem]
        simp
    · rw [lookupS_setValS_of_ne st _ hk]
      simp only [List.mem_cons]
      constructor
      · rintro ⟨h1, h2⟩
        exact ⟨h1, fun hc => h2 ⟨hc.1.resolve_left hk, hc.2⟩⟩
      · rintro ⟨h1, h2⟩
        exact ⟨h1, fun hc => h2 ⟨Or.inr hc.1, hc.2⟩⟩

theorem lookupS_removeFrom_of_not_mem (st : Sets K E) (ks : List K)
    (elems : List E) (k : K) (h : k ∉ ks) :
    lookupS (removeFrom st ks elems) k = lookupS st k := by
  induction ks generalizing st with
  | nil => rfl
  | cons k0 t ih =>
    simp only [List.mem_cons, not_or] at h
    simp only [removeFrom, List.foldl_cons] at ih ⊢
    rw [ih _ h.2, lookupS_setValS_of_ne st _ h.1]

theorem valsND_removeFrom {st : Sets K E} (hv : ValsND st) (ks : List K)
    (elems : List E) : ValsND (removeFrom st ks elems) := by
  induction ks generalizing st with
  | nil => exact hv
  | cons k0 t ih =>
    simp only [removeFrom, List.foldl_cons] at ih ⊢
    exact ih (valsND_setValS hv ((lookupS_nodup hv k0).filter _))

/-! ### Lemmas about sorting region keys -/

theorem sortK_sorted (l : List K) : (sortK l).Sorted (· ≤ ·) :=
  List.sorted_insertionSort _ l

theorem sortK_perm (l : List K) : (sortK l).Perm l :=
  List.perm_insertionSort _ l

theorem mem_sortK {l : List K} {a : K} : a ∈ sortK l ↔ a ∈ l :=
  (sortK_perm l).mem_iff

theorem sortK_nodup {l : List K} (h : l.Nodup) : (sortK l).Nodup :=
  (sortK_perm l).nodup_iff.mpr h

theorem sortK_eq_of_sorted {l : List K} (h : l.Sorted (· ≤ ·)) : sortK l = l :=
  List.Sorted.insertionSort_eq h

theorem sortK_ne_nil {l : List K} (h : l ≠ []) : sortK l ≠ [] := by
  intro hc
  apply h
  have hp := sortK_perm l
  rw [hc] at hp
  exact hp.symm.eq_nil

/-- Two duplicate-free ascending-sorted key lists with the same members are
equal: region keys are determined by their member sets. -/
theorem sorted_nodup_ext {l1 l2 : List K} (hs1 : l1.Sorted (· ≤ ·))
    (hs2 : l2.Sorted (· ≤ ·)) (hn1 : l1.Nodup) (hn2 : l2.Nodup)
    (h : ∀ a, a ∈ l1 ↔ a ∈ l2) : l1 = l2 :=
  List.eq_of_perm_of_sorted ((List.perm_ext_iff_of_nodup hn1 hn2).mpr h) hs1 hs2

/-! ### Lemmas about `Yielded` -/

theorem yielded_nil (e : E) : ¬ Yielded ([] : List (RegionT K E)) e := by
  rintro ⟨p, hp, -⟩
  exact absurd hp (List.not_mem_nil p)

theorem yielded_append {out1 out2 : List (RegionT K E)} {e : E} :
    Yielded (out1 ++ out2) e ↔ Yielded out1 e ∨ Yielded out2 e := by
  constructor
  · rintro ⟨p, hp, he⟩
    rcases List.mem_append.mp hp with h | h
    · exact Or.inl ⟨p, h, he⟩
    · exact Or.inr ⟨p, h, he⟩
  · rintro (⟨p, hp, he⟩ | ⟨p, hp, he⟩)
    · exact ⟨p, List.mem_append.mpr (Or.inl hp), he⟩
    · exact ⟨p, List.mem_append.mpr (Or.inr hp), he⟩

theorem yielded_singleton {R : List K} {el : List E} {e : E} :
    Yielded [(R, el)] e ↔ e ∈ el := by
  constructor
  · rintro ⟨p, hp, he⟩
    rcases List.mem_singleton.mp hp with rfl
    exact he
  · intro he
    exact ⟨(R, el), List.mem_singleton_self _, he⟩

/-! ### The complementary sub-family `csets` -/

theorem lookupS_mapKeys (ks : List K) (f : K → List E) (k : K) :
    lookupS (ks.map (fun k => (k, f k))) k = if k ∈ ks then f k else [] := by
  induction ks with
  | nil => simp [lookupS]
  | cons k0 t ih =>
    by_cases hk : k = k0
    · subst hk
      simp [lookupS]
    · simp only [List.map_cons, lookupS, if_neg hk, ih, List.mem_cons]
      by_cases hm : k ∈ t <;> simp [hm, hk]

theorem keysOf_mapKeys (ks : List K) (f : K → List E) :
    keysOf (ks.map (fun k => (k, f k))) = ks := by
  simp [keysOf, List.map_map]
  exact List.map_id ks

theorem mem_pydiff {l1 l2 : List E} {e : E} :
    e ∈ pydiff l1 l2 ↔ e ∈ l1 ∧ e ∉ l2 := by
  simp [pydiff]

theorem mem_pyinter {l1 l2 : List E} {e : E} :
    e ∈ pyinter l1 l2 ↔ e ∈ l1 ∧ e ∈ l2 := by
  simp [pyinter]

theorem pydiff_pydiff (l d : List E) : pydiff (pydiff l d) d = pydiff l d := by
  simp only [pydiff, List.filter_filter]
  apply List.filter_congr
  intro e _
  simp

theorem setValS_lookup_self (s : Sets K E) (k : K) :
    setValS s k (lookupS s k) = s := by
  induction s with
  | nil => rfl
  | cons p t ih =>
    obtain ⟨p1, p2⟩ := p
    by_cases hk : k = p1
    · simp [setValS, lookupS, hk]
    · simp only [setValS, lookupS, if_neg hk]
      rw [ih]

theorem lookupS_removeFrom (st : Sets K E) (ks : List K) (elems : List E)
    (k : K) (hnd : ks.Nodup) :
    lookupS (removeFrom st ks elems) k =
      if k ∈ ks then pydiff (lookupS st k) elems else lookupS st k := by
  induction ks generalizing st with
  | nil => simp [removeFrom]
  | cons k0 t ih =>
    have hnd' := (List.nodup_cons.mp hnd).2
    have hk0 : k0 ∉ t := (List.nodup_cons.mp hnd).1
    simp only [removeFrom, List.foldl_cons] at ih ⊢
    rw [ih _ hnd']
    by_cases hk : k = k0
    · subst hk
      rw [if_neg hk0, if_pos (List.mem_cons_self _ _)]
      by_cases hmem : k ∈ keysOf st
      · rw [lookupS_setValS_self st k _ hmem]
      · rw [setValS_of_not_mem st k _ hmem,
          lookupS_eq_nil_of_not_mem st k hmem]
        rfl
    · rw [lookupS_setValS_of_ne st _ hk]
      by_cases hm : k ∈ t <;> simp [hm, hk]

/-! ### Output and state invariants of the decomposition engine -/

/-- Structural correctness of an output list with respect to the input
family `s`: every yielded pair is exact (its region key is precisely the set
of keys whose set holds the element), element lists are non-empty and
duplicate-free and pairwise disjoint, region keys are non-empty sorted
duplicate-free tuples, pairwise distinct. -/
structure OutCore (s : Sets K E) (out : List (RegionT K E)) : Prop where
  exact : ∀ p ∈ out, ∀ e ∈ p.2, ∀ k, k ∈ p.1 ↔ e ∈ lookupS s k
  elemsNodup : ∀ p ∈ out, (p.2 : List E).Nodup
  elemsNe : ∀ p ∈ out, p.2 ≠ ([] : List E)
  regSorted : ∀ p ∈ out, (p.1 : List K).Sorted (· ≤ ·)
  regNodup : ∀ p ∈ out, (p.1 : List K).Nodup
  regNe : ∀ p ∈ out, p.1 ≠ ([] : List K)
  disj : out.Pairwise (fun p q => ∀ e, e ∈ p.2 → e ∉ q.2)
  regDistinct : out.Pairwise (fun p q => p.1 ≠ q.1)

/-- `OutCore` plus completeness: every element of the family is yielded. -/
structure EulOut (s : Sets K E) (out : List (RegionT K E))
    extends OutCore s out : Prop where
  complete : ∀ k, ∀ e ∈ lookupS s k, Yielded out e

/-- The invariant tying the working dict `sets_` to the pristine input `s`
during one productive pass: same key skeleton, the remaining value of a key
consists exactly of its not-yet-yielded original elements, values stay
duplicate-free, and the output so far is structurally correct. -/
structure InnerInv (s st : Sets K E) (out : List (RegionT K E)) : Prop where
  keys_eq : keysOf st = keysOf s
  mem_st : ∀ k e, e ∈ lookupS st k ↔ (e ∈ lookupS s k ∧ ¬ Yielded out e)
  st_nodup : ValsND st
  out_core : OutCore s out

/-- Yield one exact region `(R, elems)` and remove its elements from the
working sets of every key in `R`: the shared shape of the two yield branches
of the inner loop. -/
theorem yield_step {s st : Sets K E} {out : List (RegionT K E)}
    (hinv : InnerInv s st out) {R : List K} {elems : List E}
    (hmem : ∀ e ∈ elems, ∀ k, k ∈ R ↔ e ∈ lookupS s k)
    (helems_nd : elems.Nodup) (helems_ne : elems ≠ [])
    (hR_s : R.Sorted (· ≤ ·)) (hR_nd : R.Nodup) (hR_ne : R ≠ [])
    (hfresh : ∀ e ∈ elems, ¬ Yielded out e)
    (hregfresh : ∀ p ∈ out, p.1 ≠ R) :
    InnerInv s (removeFrom st R elems) (out ++ [(R, elems)]) ∧
      (∀ e, Yielded (out ++ [(R, elems)]) e ↔ (Yielded out e ∨ e ∈ elems)) :=
  by
  have hyield : ∀ e, Yielded (out ++ [(R, elems)]) e ↔ (Yielded out e ∨ e ∈ elems) := by
    intro e
    rw [yielded_append, yielded_singleton]
  refine ⟨⟨?_, ?_, ?_, ?_⟩, hyield⟩
  · rw [keysOf_removeFrom]
    exact hinv.keys_eq
  · intro k e
    rw [mem_lookupS_removeFrom, hinv.mem_st, hyield]
    constructor
    · rintro ⟨⟨h1, h2⟩, h3⟩
      refine ⟨h1, ?_⟩
      rintro (hy | he)
      · exact h2 hy
      · exact h3 ⟨(hmem e he k).mpr h1, he⟩
    · rintro ⟨h1, h2⟩
      exact ⟨⟨h1, fun hy => h2 (Or.inl hy)⟩, fun hc => h2 (Or.inr hc.2)⟩
  · exact valsND_removeFrom hinv.st_nodup R elems
  · refine ⟨?_, ?_, ?_, ?_, ?_, ?_, ?_, ?_⟩
    · intro p hp
      rcases List.mem_append.mp hp with h | h
      · exact hinv.out_core.exact p h
      · rcases List.mem_singleton.mp h with rfl
        exact hmem
    · intro p hp
      rcases List.mem_append.mp hp with h | h
      · exact hinv.out_core.elemsNodup p h
      · rcases List.mem_singleton.mp h with rfl
        exact helems_nd
    · intro p hp
      rcases List.mem_append.mp hp with h | h
      · exact hinv.out_core.elemsNe p h
      · rcases List.mem_singleton.mp h with rfl
        exact helems_ne
    · intro p hp
      rcases List.mem_append.mp hp with h | h
      · exact hinv.out_core.regSorted p h
      · rcases List.mem_singleton.mp h with rfl
        exact hR_s
    · intro p hp
      rcases List.mem_append.mp hp with h | h
      · exact hinv.out_core.regNodup p h
      · rcases List.mem_singleton.mp h with rfl
        exact hR_nd
    · intro p hp
      rcases List.mem_append.mp hp with h | h
      · exact hinv.out_core.regNe p h
      · rcases List.mem_singleton.mp h with rfl
        exact hR_ne
    · rw [List.pairwise_append]
      refine ⟨hinv.out_core.disj, List.pairwise_singleton _ _, ?_⟩
      intro p hp q hq
      rcases List.mem_singleton.mp hq with rfl
      intro e hep hee
      exact hfresh e hee ⟨p, hp, hep⟩
    · rw [List.pairwise_append]
      refine ⟨hinv.out_core.regDistinct, List.pairwise_singleton _ _, ?_⟩
      intro p hp q hq
      rcases List.mem_singleton.mp hq with rfl
      exact hregfresh p hp

/-- Processing one `(t, c)` pair yielded by the recursive call: the
invariant is preserved, exactly the elements of `c` get yielded, the new
regions are `t` and `sort (t ++ [k0])`, and the worker body
(`euler_generator_worker`'s inner loop, which intersects against the stale
`this_set`) performs the identical state transition. -/
theorem innerStep_spec {s : Sets K E} {k0 : K}
    {st : Sets K E} (ck : List K) {out : List (RegionT K E)}
    (hinv : InnerInv s st out)
    {t : List K} {c : List E}
    (hx : ∀ e ∈ c, ∀ k, k ∈ t ↔ (k ≠ k0 ∧ e ∈ lookupS s k))
    (hc_ne : c ≠ []) (hc_nd : c.Nodup)
    (ht_s : t.Sorted (· ≤ ·)) (ht_nd : t.Nodup) (ht_ne : t ≠ [])
    (hfresh : ∀ e ∈ c, ¬ Yielded out e)
    (hreg : ∀ p ∈ out, p.1 ≠ t ∧ p.1 ≠ sortK (t ++ [k0])) :
    ∃ st2 out2,
      innerStepSeq k0 (lookupS s k0) (st, ck, out) (t, c) =
        (st2, clearedKeys st2, out2) ∧
      innerStepWrk k0 (lookupS s k0) (st, out) (t, c) = (st2, out2) ∧
      InnerInv s st2 out2 ∧
      (∀ e, Yielded out2 e ↔ (Yielded out e ∨ e ∈ c)) ∧
      (∀ p ∈ out2, p ∈ out ∨ p.1 = t ∨ p.1 = sortK (t ++ [k0])) := by
  obtain ⟨e0, he0⟩ := List.exists_mem_of_ne_nil c hc_ne
  have hk0t : k0 ∉ t := fun hk => ((hx e0 he0 k0).mp hk).1 rfl
  have hsortt : sortK t = t := sortK_eq_of_sorted ht_s
  set t0 := lookupS s k0 with ht0
  -- the first (exclusive) yield branch
  set comb1 := pydiff c t0 with hcomb1
  have hcomb1mem : ∀ e, e ∈ comb1 ↔ e ∈ c ∧ e ∉ lookupS s k0 := by
    intro e
    rw [hcomb1, mem_pydiff, ht0]
  -- the combined key of the second (intersection) yield branch
  set R2 := sortK (t ++ [k0]) with hR2
  have hR2mem : ∀ k, k ∈ R2 ↔ k ∈ t ∨ k = k0 := by
    intro k
    rw [hR2, mem_sortK]
    simp
  have hR2nd : R2.Nodup := by
    rw [hR2]
    apply sortK_nodup
    simp [List.nodup_append, ht_nd, hk0t]
  have hR2s : R2.Sorted (· ≤ ·) := sortK_sorted _
  have hR2ne : R2 ≠ [] := sortK_ne_nil (by simp)
  have htR2 : t ≠ R2 := by
    intro hc'
    exact hk0t (hc' ▸ (hR2mem k0).mpr (Or.inr rfl))
  -- stage 1: the exclusive branch
  have stage1 :
      ∃ st1 out1,
        (if comb1 ≠ [] then removeFrom st (sortK t) comb1 else st) = st1 ∧
        (if comb1 ≠ [] then out ++ [(sortK t, comb1)] else out) = out1 ∧
        InnerInv s st1 out1 ∧
        (∀ e, Yielded out1 e ↔ (Yielded out e ∨ e ∈ comb1)) ∧
        lookupS st1 k0 = lookupS st k0 ∧
        (∀ p ∈ out1, p ∈ out ∨ p.1 = t) := by
    by_cases h1 : comb1 = []
    · refine ⟨st, out, ?_, ?_, hinv, ?_, rfl, fun p hp => Or.inl hp⟩
      · rw [if_neg (by simpa using h1)]
      · rw [if_neg (by simpa using h1)]
      · intro e
        rw [h1]
        simp
    · have hmem1 : ∀ e ∈ comb1, ∀ k, k ∈ t ↔ e ∈ lookupS s k := by
        intro e he k
        obtain ⟨hec, hek0⟩ := (hcomb1mem e).mp he
        rw [hx e hec k]
        constructor
        · rintro ⟨-, h⟩
          exact h
        · intro h
          refine ⟨?_, h⟩
          rintro rfl
          exact hek0 h
      have hfresh1 : ∀ e ∈ comb1, ¬ Yielded out e := fun e he =>
        hfresh e ((hcomb1mem e).mp he).1
      have hynd : comb1.Nodup := hc_nd.filter _
      obtain ⟨hinv1, hy1⟩ := yield_step hinv hmem1 hynd h1 ht_s ht_nd ht_ne
        hfresh1 (fun p hp => (hreg p hp).1)
      refine ⟨removeFrom st t comb1, out ++ [(t, comb1)], ?_, ?_, hinv1, ?_, ?_, ?_⟩
      · rw [if_pos (by simpa using h1), hsortt]
      · rw [if_pos (by simpa using h1), hsortt]
      · intro e
        rw [hy1 e]
      · rw [lookupS_removeFrom_of_not_mem st t comb1 k0 hk0t]
      · intro p hp
        rcases List.mem_append.mp hp with h | h
        · exact Or.inl h
        · rcases List.mem_singleton.mp h with rfl
          exact Or.inr rfl
  obtain ⟨st1, out1, hst1eq, hout1eq, hinv1, hy1, hst1k0, hchar1⟩ := stage1
  -- the intersection elements: both the sequential form (current
  -- `sets_[set_key]`) and the worker form (stale `this_set`) filter `c` by
  -- membership in the unyielded part of the original `k0`-set, and agree.
  set comb2 := pyinter c (lookupS st1 k0) with hcomb2
  have hcomb2mem : ∀ e, e ∈ comb2 ↔ e ∈ c ∧ e ∈ lookupS s k0 := by
    intro e
    rw [hcomb2, mem_pyinter, hst1k0]
    constructor
    · rintro ⟨hec, hes⟩
      exact ⟨hec, ((hinv.mem_st k0 e).mp hes).1⟩
    · rintro ⟨hec, hes⟩
      exact ⟨hec, (hinv.mem_st k0 e).mpr ⟨hes, hfresh e hec⟩⟩
  have hcombw : pyinter c t0 = comb2 := by
    rw [hcomb2, hst1k0]
    apply List.filter_congr
    intro e hec
    have : (e ∈ t0) ↔ (e ∈ lookupS st k0) := by
      rw [ht0, hinv.mem_st k0 e]
      exact ⟨fun h => ⟨h, hfresh e hec⟩, fun h => h.1⟩
    simp only [decide_eq_decide]
    exact this
  have hreg1 : ∀ p ∈ out1, p.1 ≠ R2 := by
    intro p hp
    rcases hchar1 p hp with h | h
    · exact (hreg p h).2
    · rw [h]
      exact htR2
  -- stage 2: the intersection branch
  have stage2 :
      ∃ st2 out2,
        (if comb2 ≠ [] then
           setValS (removeFrom st1 R2 comb2) k0
             (pydiff (lookupS (removeFrom st1 R2 comb2) k0) comb2)
         else st1) = st2 ∧
        (if comb2 ≠ [] then out1 ++ [(R2, comb2)] else out1) = out2 ∧
        InnerInv s st2 out2 ∧
        (∀ e, Yielded out2 e ↔ (Yielded out1 e ∨ e ∈ comb2)) ∧
        (∀ p ∈ out2, p ∈ out1 ∨ p.1 = R2) := by
    by_cases h2 : comb2 = []
    · refine ⟨st1, out1, ?_, ?_, hinv1, ?_, fun p hp => Or.inl hp⟩
      · rw [if_neg (by simpa using h2)]
      · rw [if_neg (by simpa using h2)]
      · intro e
        rw [h2]
        simp
    · have hmem2 : ∀ e ∈ comb2, ∀ k, k ∈ R2 ↔ e ∈ lookupS s k := by
        intro e he k
        obtain ⟨hec, hek0⟩ := (hcomb2mem e).mp he
        rw [hR2mem k]
        constructor
        · rintro (h | rfl)
          · exact ((hx e hec k).mp h).2
          · exact hek0
        · intro h
          by_cases hk : k = k0
          · exact Or.inr hk
          · exact Or.inl ((hx e hec k).mpr ⟨hk, h⟩)
      have hfresh2 : ∀ e ∈ comb2, ¬ Yielded out1 e := by
        intro e he hy
        obtain ⟨hec, hek0⟩ := (hcomb2mem e).mp he
        rcases (hy1 e).mp hy with h | h
        · exact hfresh e hec h
        · exact ((hcomb1mem e).mp h).2 hek0
      have h2nd : comb2.Nodup := hc_nd.filter _
      obtain ⟨hinv2, hy2⟩ := yield_step hinv1 hmem2 h2nd h2 hR2s hR2nd hR2ne
        hfresh2 hreg1
      have hstA : setValS (removeFrom st1 R2 comb2) k0
          (pydiff (lookupS (removeFrom st1 R2 comb2) k0) comb2) =
          removeFrom st1 R2 comb2 := by
        have hk0R2 : k0 ∈ R2 := (hR2mem k0).mpr (Or.inr rfl)
        have hlook : lookupS (removeFrom st1 R2 comb2) k0 =
            pydiff (lookupS st1 k0) comb2 := by
          rw [lookupS_removeFrom st1 R2 comb2 k0 hR2nd, if_pos hk0R2]
        rw [hlook, pydiff_pydiff, ← hlook]
        exact setValS_lookup_self _ _
      refine ⟨removeFrom st1 R2 comb2, out1 ++ [(R2, comb2)], ?_, ?_, hinv2, ?_, ?_⟩
      · rw [if_pos (by simpa using h2), hstA]
      · rw [if_pos (by simpa using h2)]
      · intro e
        rw [hy2 e]
      · intro p hp
        rcases List.mem_append.mp hp with h | h
        · exact Or.inl h
        · rcases List.mem_singleton.mp h with rfl
          exact Or.inr rfl
  obtain ⟨st2, out2, hst2eq, hout2eq, hinv2, hy2, hchar2⟩ := stage2
  refine ⟨st2, out2, ?_, ?_, hinv2, ?_, ?_⟩
  · -- the sequential inner body computes (st2, clearedKeys st2, out2)
    show innerStepSeq k0 t0 (st, ck, out) (t, c) = (st2, clearedKeys st2, out2)
    simp only [innerStepSeq]
    rw [← hcomb1]
    rw [hst1eq, hout1eq, ← hcomb2, ← hR2, hst2eq, hout2eq]
  · -- the worker inner body computes (st2, out2)
    show innerStepWrk k0 t0 (st, out) (t, c) = (st2, out2)
    simp only [innerStepWrk]
    rw [← hcomb1]
    rw [hst1eq, hout1eq, hcombw, ← hR2, hst2eq, hout2eq]
  · intro e
    rw [hy2 e, hy1 e]
    constructor
    · rintro ((hy | h1) | h2)
      · exact Or.inl hy
      · exact Or.inr ((hcomb1mem e).mp h1).1
      · exact Or.inr ((hcomb2mem e).mp h2).1
    · rintro (hy | hc)
      · exact Or.inl (Or.inl hy)
      · by_cases hk0 : e ∈ lookupS s k0
        · exact Or.inr ((hcomb2mem e).mpr ⟨hc, hk0⟩)
        · exact Or.inl (Or.inr ((hcomb1mem e).mpr ⟨hc, hk0⟩))
  · intro p hp
    rcases hchar2 p hp with h | h
    · rcases hchar1 p h with h' | h'
      · exact Or.inl h'
      · exact Or.inr (Or.inl h')
    · exact Or.inr (Or.inr (hR2 ▸ h))

/-- Two distinct sorted duplicate-free regions stay distinct after the
current key is sorted into each. -/
theorem sort_snoc_ne {k0 : K} {t1 t2 : List K}
    (hs1 : t1.Sorted (· ≤ ·)) (hs2 : t2.Sorted (· ≤ ·))
    (hn1 : t1.Nodup) (hn2 : t2.Nodup)
    (hk1 : k0 ∉ t1) (hk2 : k0 ∉ t2) (hne : t1 ≠ t2) :
    sortK (t1 ++ [k0]) ≠ sortK (t2 ++ [k0]) := by
  intro heq
  apply hne
  apply sorted_nodup_ext hs1 hs2 hn1 hn2
  intro a
  have hmem : ∀ b, b ∈ t1 ∨ b = k0 ↔ b ∈ t2 ∨ b = k0 := by
    intro b
    have h1 : b ∈ sortK (t1 ++ [k0]) ↔ b ∈ t1 ∨ b = k0 := by
      rw [mem_sortK]; simp
    have h2 : b ∈ sortK (t2 ++ [k0]) ↔ b ∈ t2 ∨ b = k0 := by
      rw [mem_sortK]; simp
    rw [← h1, ← h2, heq]
  constructor
  · intro ha
    rcases (hmem a).mp (Or.inl ha) with h | h
    · exact h
    · exact absurd (h ▸ ha) hk1
  · intro ha
    rcases (hmem a).mpr (Or.inl ha) with h | h
    · exact h
    · exact absurd (h ▸ ha) hk2

/-- Folding the inner loop over the remaining recursion output: the
invariant is preserved, exactly the elements of the processed items get
yielded, the added regions come from the processed items, and the worker
fold computes the same state and output. -/
theorem innerFold_spec {s : Sets K E} {k0 : K}
    (rem : List (RegionT K E)) {st : Sets K E} (ck : List K)
    {out : List (RegionT K E)}
    (hinv : InnerInv s st out)
    (hrem : ∀ p ∈ rem, (∀ e ∈ p.2, ∀ k, k ∈ p.1 ↔ (k ≠ k0 ∧ e ∈ lookupS s k)) ∧
      p.2 ≠ [] ∧ (p.2 : List E).Nodup ∧ (p.1 : List K).Sorted (· ≤ ·) ∧
      (p.1 : List K).Nodup ∧ p.1 ≠ [])
    (hpair : rem.Pairwise (fun p q => (∀ e, e ∈ p.2 → e ∉ q.2) ∧ p.1 ≠ q.1))
    (hfresh : ∀ p ∈ rem, ∀ e ∈ p.2, ¬ Yielded out e)
    (hreg : ∀ p ∈ rem, ∀ q ∈ out, q.1 ≠ p.1 ∧ q.1 ≠ sortK (p.1 ++ [k0])) :
    ∃ st2 out2 ck2,
      rem.foldl (innerStepSeq k0 (lookupS s k0)) (st, ck, out) = (st2, ck2, out2) ∧
      rem.foldl (innerStepWrk k0 (lookupS s k0)) (st, out) = (st2, out2) ∧
      InnerInv s st2 out2 ∧
      (∀ e, Yielded out2 e ↔ (Yielded out e ∨ ∃ p ∈ rem, e ∈ p.2)) ∧
      (∀ p ∈ out2, p ∈ out ∨ ∃ q ∈ rem, p.1 = q.1 ∨ p.1 = sortK (q.1 ++ [k0])) := by
  induction rem generalizing st ck out with
  | nil =>
    refine ⟨st, out, ck, rfl, rfl, hinv, ?_, fun p hp => Or.inl hp⟩
    intro e
    simp
  | cons hd rest ih =>
    obtain ⟨t, c⟩ := hd
    obtain ⟨hx, hc_ne, hc_nd, ht_s, ht_nd, ht_ne⟩ := hrem (t, c) (List.mem_cons_self _ _)
    dsimp only at hx hc_ne hc_nd ht_s ht_nd ht_ne
    -- the head key avoids k0, and so does every later key
    obtain ⟨e0, he0⟩ := List.exists_mem_of_ne_nil c hc_ne
    have hk0t : k0 ∉ t := fun hk => ((hx e0 he0 k0).mp hk).1 rfl
    have hk0rest : ∀ q ∈ rest, k0 ∉ q.1 := by
      intro q hq hk
      obtain ⟨hxq, hq_ne, -⟩ := hrem q (List.mem_cons_of_mem _ hq)
      obtain ⟨e1, he1⟩ := List.exists_mem_of_ne_nil q.2 hq_ne
      exact ((hxq e1 he1 k0).mp hk).1 rfl
    obtain ⟨st1, out1, heq1, heqw1, hinv1, hy1, hchar1⟩ :=
      innerStep_spec ck hinv hx hc_ne hc_nd ht_s ht_nd ht_ne
        (hfresh (t, c) (List.mem_cons_self _ _))
        (fun q hq => hreg (t, c) (List.mem_cons_self _ _) q hq)
    have hpair_head := (List.pairwise_cons.mp hpair).1
    have hpair_rest := (List.pairwise_cons.mp hpair).2
    have hfresh' : ∀ p ∈ rest, ∀ e ∈ p.2, ¬ Yielded out1 e := by
      intro p hp e he hy
      rcases (hy1 e).mp hy with h | h
      · exact hfresh p (List.mem_cons_of_mem _ hp) e he h
      · exact (hpair_head p hp).1 e h he
    have hreg' : ∀ p ∈ rest, ∀ q ∈ out1, q.1 ≠ p.1 ∧ q.1 ≠ sortK (p.1 ++ [k0]) := by
      intro p hp q hq
      have htp : t ≠ p.1 := (hpair_head p hp).2
      obtain ⟨hxp, hp_ne, hp_nd, hp_s, hp_nd2, hp_ne2⟩ :=
        hrem p (List.mem_cons_of_mem _ hp)
      rcases hchar1 q hq with h | h | h
      · exact hreg p (List.mem_cons_of_mem _ hp) q h
      · constructor
        · rw [h]
          exact htp
        · rw [h]
          intro hc'
          apply hk0t
          rw [hc', mem_sortK]
          simp
      · constructor
        · rw [h]
          intro hc'
          apply hk0rest p hp
          rw [← hc', mem_sortK]
          simp
        · rw [h]
          exact sort_snoc_ne ht_s hp_s ht_nd hp_nd2 hk0t (hk0rest p hp) htp
    obtain ⟨st2, out2, ck2, heq2, heqw2, hinv2, hy2, hchar2⟩ :=
      ih (clearedKeys st1) hinv1
        (fun p hp => hrem p (List.mem_cons_of_mem _ hp)) hpair_rest hfresh' hreg'
    refine ⟨st2, out2, ck2, ?_, ?_, hinv2, ?_, ?_⟩
    · rw [List.foldl_cons, heq1, heq2]
    · rw [List.foldl_cons, heqw1, heqw2]
    · intro e
      rw [hy2 e, hy1 e]
      constructor
      · rintro ((hy | hc) | ⟨p, hp, he⟩)
        · exact Or.inl hy
        · exact Or.inr ⟨(t, c), List.mem_cons_self _ _, hc⟩
        · exact Or.inr ⟨p, List.mem_cons_of_mem _ hp, he⟩
      · rintro (hy | ⟨p, hp, he⟩)
        · exact Or.inl (Or.inl hy)
        · rcases List.mem_cons.mp hp with rfl | hp'
          · exact Or.inl (Or.inr he)
          · exact Or.inr ⟨p, hp', he⟩
    · intro p hp
      rcases hchar2 p hp with h | ⟨q, hq, hq'⟩
      · rcases hchar1 p h with h' | h' | h'
        · exact Or.inl h'
        · exact Or.inr ⟨(t, c), List.mem_cons_self _ _, Or.inl h'⟩
        · exact Or.inr ⟨(t, c), List.mem_cons_self _ _, Or.inr h'⟩
      · exact Or.inr ⟨q, List.mem_cons_of_mem _ hq, hq'⟩

theorem pydiff_self (l : List E) : pydiff l l = [] := by
  rw [pydiff, List.filter_eq_nil_iff]
  intro e he
  simp [he]

/-- One productive pass for the key `k0` on the pristine validated family:
the common computation of the first productive iteration of the sequential
engine and of one worker.  `sub` is the fully-consumed recursive
decomposition of the complementary family `csets`; assuming it is correct
for `csets`, both the sequential and the worker inner folds, followed by the
final exclusive-remainder yield, produce a correct decomposition of the
whole family `s`, and every working set is empty afterwards. -/
theorem pass_core {s : Sets K E} (hknd : KeysND s) (hvnd : ValsND s)
    {k0 : K} (hk0 : k0 ∈ clearedKeys s)
    (hlen2 : 2 ≤ (clearedKeys s).length)
    (sub : List (RegionT K E))
    (hsub : EulOut
      (((clearedKeys s).filter (fun k => k ≠ k0)).map (fun k => (k, lookupS s k)))
      sub) :
    ∃ st2 out2 ck2,
      sub.foldl (innerStepSeq k0 (lookupS s k0)) (s, clearedKeys s, []) =
        (st2, ck2, out2) ∧
      sub.foldl (innerStepWrk k0 (lookupS s k0)) (s, []) = (st2, out2) ∧
      EulOut s
        (if lookupS st2 k0 ≠ [] then out2 ++ [([k0], lookupS st2 k0)] else out2) ∧
      (∀ k,
        lookupS (if lookupS st2 k0 ≠ [] then setValS st2 k0 [] else st2) k = []) := by
  set other_keys := (clearedKeys s).filter (fun k => k ≠ k0) with hok
  set csets := other_keys.map (fun k => (k, lookupS s k)) with hcs
  have hlookc : ∀ k, lookupS csets k = if k ∈ other_keys then lookupS s k else [] := by
    intro k
    rw [hcs, lookupS_mapKeys]
  have hmem_ok : ∀ k, k ∈ other_keys ↔ (k ∈ clearedKeys s ∧ k ≠ k0) := by
    intro k
    rw [hok, List.mem_filter]
    simp
  -- membership across the complementary family, in terms of `s`
  have hlookc' : ∀ k e, e ∈ lookupS csets k ↔ (k ≠ k0 ∧ e ∈ lookupS s k) := by
    intro k e
    rw [hlookc k]
    by_cases hm : k ∈ other_keys
    · rw [if_pos hm]
      exact ⟨fun he => ⟨((hmem_ok k).mp hm).2, he⟩, fun h => h.2⟩
    · rw [if_neg hm]
      constructor
      · intro he
        exact absurd he (List.not_mem_nil e)
      · rintro ⟨hne, he⟩
        exfalso
        apply hm
        rw [hmem_ok]
        refine ⟨?_, hne⟩
        rw [mem_clearedKeys_iff hknd]
        intro hnil
        rw [hnil] at he
        exact absurd he (List.not_mem_nil e)
  -- the recursion output, re-read against `s`
  have hx : ∀ p ∈ sub, ∀ e ∈ p.2, ∀ k, k ∈ p.1 ↔ (k ≠ k0 ∧ e ∈ lookupS s k) := by
    intro p hp e he k
    rw [hsub.exact p hp e he k, hlookc' k e]
  -- initial invariant on the pristine state
  have hinv0 : InnerInv s s [] := by
    refine ⟨rfl, ?_, hvnd, ?_⟩
    · intro k e
      constructor
      · intro he
        exact ⟨he, yielded_nil e⟩
      · exact fun h => h.1
    · exact ⟨fun p hp => absurd hp (List.not_mem_nil p),
        fun p hp => absurd hp (List.not_mem_nil p),
        fun p hp => absurd hp (List.not_mem_nil p),
        fun p hp => absurd hp (List.not_mem_nil p),
        fun p hp => absurd hp (List.not_mem_nil p),
        fun p hp => absurd hp (List.not_mem_nil p),
        List.Pairwise.nil, List.Pairwise.nil⟩
  -- fold the recursion output through the inner loop
  obtain ⟨st2, out2, ck2, heqS, heqW, hinv2, hy2, hchar2⟩ :=
    innerFold_spec sub (clearedKeys s) hinv0
      (fun p hp => ⟨hx p hp, hsub.elemsNe p hp, hsub.elemsNodup p hp,
        hsub.regSorted p hp, hsub.regNodup p hp, hsub.regNe p hp⟩)
      ((hsub.disj.and hsub.regDistinct).imp (fun h => h))
      (fun p _ e _ => yielded_nil e)
      (fun p _ q hq => absurd hq (List.not_mem_nil q))
  have hy2' : ∀ e, Yielded out2 e ↔ ∃ p ∈ sub, e ∈ p.2 := by
    intro e
    rw [hy2 e]
    constructor
    · rintro (hy | h)
      · exact absurd hy (yielded_nil e)
      · exact h
    · exact Or.inr
  have hchar2' : ∀ p ∈ out2, ∃ q ∈ sub, p.1 = q.1 ∨ p.1 = sortK (q.1 ++ [k0]) := by
    intro p hp
    rcases hchar2 p hp with h | h
    · exact absurd h (List.not_mem_nil p)
    · exact h
  -- non-k0 elements are all yielded at this point
  have hother_done : ∀ k, k ≠ k0 → ∀ e ∈ lookupS s k, Yielded out2 e := by
    intro k hk e he
    rw [hy2' e]
    exact hsub.complete k e ((hlookc' k e).mpr ⟨hk, he⟩)
  -- the keys of every sub region avoid k0
  have hk0sub : ∀ q ∈ sub, k0 ∉ q.1 := by
    intro q hq hk
    obtain ⟨e1, he1⟩ := List.exists_mem_of_ne_nil q.2 (hsub.elemsNe q hq)
    exact ((hx q hq e1 he1 k0).mp hk).1 rfl
  -- no region so far is the singleton [k0]
  have hsing : ∀ p ∈ out2, p.1 ≠ [k0] := by
    intro p hp hc
    obtain ⟨q, hq, hq'⟩ := hchar2' p hp
    obtain ⟨k1, hk1⟩ := List.exists_mem_of_ne_nil q.1 (hsub.regNe q hq)
    have hk1ne : k1 ≠ k0 := fun h => hk0sub q hq (h ▸ hk1)
    rcases hq' with h | h
    · rw [hc] at h
      have : k1 ∈ ([k0] : List K) := h ▸ hk1
      exact hk1ne (List.mem_singleton.mp this)
    · rw [hc] at h
      have : k1 ∈ sortK (q.1 ++ [k0]) := by
        rw [mem_sortK]
        exact List.mem_append_left _ hk1
      rw [← h] at this
      exact hk1ne (List.mem_singleton.mp this)
  set rest := lookupS st2 k0 with hrest
  have hrest_mem : ∀ e, e ∈ rest ↔ (e ∈ lookupS s k0 ∧ ¬ Yielded out2 e) := by
    intro e
    rw [hrest]
    exact hinv2.mem_st k0 e
  refine ⟨st2, out2, ck2, heqS, heqW, ?_, ?_⟩
  · -- the final output is a correct decomposition of `s`
    by_cases hre : rest = []
    · rw [if_neg (by simpa using hre)]
      refine ⟨hinv2.out_core, ?_⟩
      intro k e he
      by_cases hk : k = k0
      · subst hk
        by_contra hy
        have : e ∈ rest := (hrest_mem e).mpr ⟨he, hy⟩
        rw [hre] at this
        exact absurd this (List.not_mem_nil e)
      · exact hother_done k hk e he
    · rw [if_pos (by simpa using hre)]
      have hmemF : ∀ e ∈ rest, ∀ k, k ∈ ([k0] : List K) ↔ e ∈ lookupS s k := by
        intro e he k
        obtain ⟨hek0, hny⟩ := (hrest_mem e).mp he
        constructor
        · intro hk
          rw [List.mem_singleton.mp hk]
          exact hek0
        · intro hek
          rw [List.mem_singleton]
          by_contra hk
          exact hny (hother_done k hk e hek)
      have hfreshF : ∀ e ∈ rest, ¬ Yielded out2 e := fun e he =>
        ((hrest_mem e).mp he).2
      obtain ⟨hinvF, -⟩ := yield_step hinv2 hmemF
        (lookupS_nodup hinv2.st_nodup k0) hre
        (List.sorted_singleton k0) (List.nodup_singleton k0)
        (by simp) hfreshF hsing
      refine ⟨hinvF.out_core, ?_⟩
      intro k e he
      rw [yielded_append, yielded_singleton]
      by_cases hk : k = k0
      · subst hk
        by_cases hy : Yielded out2 e
        · exact Or.inl hy
        · exact Or.inr ((hrest_mem e).mpr ⟨he, hy⟩)
      · exact Or.inl (hother_done k hk e he)
  · -- every working set is empty after the pass
    intro k
    have hempty2 : ∀ k', k' ≠ k0 → lookupS st2 k' = [] := by
      intro k' hk'
      rw [List.eq_nil_iff_forall_not_mem]
      intro e he
      obtain ⟨hes, hny⟩ := (hinv2.mem_st k' e).mp he
      exact hny (hother_done k' hk' e hes)
    by_cases hre : rest = []
    · rw [if_neg (by simpa using hre)]
      by_cases hk : k = k0
      · rw [hk, ← hrest, hre]
      · exact hempty2 k hk
    · rw [if_pos (by simpa using hre)]
      by_cases hk : k = k0
      · subst hk
        have hkeys : k ∈ keysOf st2 := by
          rw [hinv2.keys_eq]
          exact clearedKeys_subset_keys hk0
        rw [lookupS_setValS_self st2 k [] hkeys]
      · rw [lookupS_setValS_of_ne st2 [] hk]
        exact hempty2 k hk

/-- Once every working set is empty, every further outer iteration hits the
`continue` at line 58 and leaves the state untouched. -/
theorem outerStep_noop (rec : Sets K E → List (RegionT K E))
    {st : Sets K E} (ck : List K) (out : List (RegionT K E)) (key : K)
    (hempty : ∀ k, lookupS st k = []) :
    outerStepSeq rec (st, ck, out) key = (st, ck, out) := by
  simp only [outerStepSeq]
  rw [if_pos (Or.inl (hempty key))]

theorem outerFold_noop (rec : Sets K E → List (RegionT K E))
    {st : Sets K E} (ck : List K) (out : List (RegionT K E)) (ks : List K)
    (hempty : ∀ k, lookupS st k = []) :
    ks.foldl (outerStepSeq rec) (st, ck, out) = (st, ck, out) := by
  induction ks with
  | nil => rfl
  | cons k t ih =>
    rw [List.foldl_cons, outerStep_noop rec ck out k hempty, ih]

/-- When every value of the family is non-empty, the cleared keys are all
the keys. -/
theorem clearedKeys_eq_keys {s : Sets K E} (h : ∀ p ∈ s, p.2 ≠ []) :
    clearedKeys s = keysOf s := by
  unfold clearedKeys keysOf
  congr 1
  rw [List.filter_eq_self]
  intro p hp
  simpa using h p hp

/-- A duplicate-free list of length at least two has a member different from
any given element. -/
theorem exists_other_mem {l : List K} (hnd : l.Nodup) (hlen : 2 ≤ l.length)
    (a : K) : ∃ b ∈ l, b ≠ a := by
  match l, hlen with
  | b0 :: b1 :: t, _ =>
    by_cases hb : b0 = a
    · subst hb
      refine ⟨b1, List.mem_cons_of_mem _ (List.mem_cons_self _ _), ?_⟩
      intro hc
      subst hc
      exact (List.nodup_cons.mp hnd).1 (List.mem_cons_self _ _)
    · exact ⟨b0, List.mem_cons_self _ _, hb⟩

/-- Structural facts about the complementary family built for key `k0`. -/
theorem csets_facts {s : Sets K E} (hknd : KeysND s) (hvnd : ValsND s)
    {k0 : K} (hk0 : k0 ∈ clearedKeys s) :
    KeysND (((clearedKeys s).filter (fun k => k ≠ k0)).map (fun k => (k, lookupS s k))) ∧
    ValsND (((clearedKeys s).filter (fun k => k ≠ k0)).map (fun k => (k, lookupS s k))) ∧
    (∀ p ∈ ((clearedKeys s).filter (fun k => k ≠ k0)).map (fun k => (k, lookupS s k)),
      p.2 ≠ ([] : List E)) ∧
    (((clearedKeys s).filter (fun k => k ≠ k0)).map (fun k => (k, lookupS s k))).length
      < s.length := by
  have hcnd : (clearedKeys s).Nodup := clearedKeys_nodup hknd
  have hoknd : ((clearedKeys s).filter (fun k => k ≠ k0)).Nodup := hcnd.filter _
  refine ⟨?_, ?_, ?_, ?_⟩
  · unfold KeysND
    rw [keysOf_mapKeys]
    exact hoknd
  · intro p hp
    obtain ⟨k, -, rfl⟩ := List.mem_map.mp hp
    exact lookupS_nodup hvnd k
  · intro p hp
    obtain ⟨k, hk, rfl⟩ := List.mem_map.mp hp
    have hkc : k ∈ clearedKeys s := (List.mem_filter.mp hk).1
    exact (mem_clearedKeys_iff hknd k).mp hkc
  · rw [List.length_map]
    have hsub : List.Sublist ((clearedKeys s).filter (fun k => k ≠ k0))
        (clearedKeys s) := List.filter_sublist _
    have hlt : ((clearedKeys s).filter (fun k => k ≠ k0)).length
        < (clearedKeys s).length := by
      rcases Nat.lt_or_ge ((clearedKeys s).filter (fun k => k ≠ k0)).length
        (clearedKeys s).length with h | h
      · exact h
      · exfalso
        have heq := hsub.eq_of_length (Nat.le_antisymm hsub.length_le h)
        have hmem : k0 ∈ (clearedKeys s).filter (fun k => k ≠ k0) := by
          rw [heq]
          exact hk0
        simp at hmem
    have hle : (clearedKeys s).length ≤ s.length := by
      have h1 : List.Sublist (clearedKeys s) (keysOf s) := by
        simpa [clearedKeys, keysOf] using (List.filter_sublist s).map Prod.fst
      have := h1.length_le
      rw [keysOf, List.length_map] at this
      exact this
    omega

/-- The first productive outer iteration of the sequential engine: given a
correct recursive decomposition of the complementary family, the iteration
for `k0` on the pristine state produces a correct decomposition of the whole
family and empties every working set. -/
theorem outerStep_pass (rec : Sets K E → List (RegionT K E))
    {s : Sets K E} (hknd : KeysND s) (hvnd : ValsND s)
    {k0 : K} (hk0 : k0 ∈ clearedKeys s)
    (hlen2 : 2 ≤ (clearedKeys s).length)
    (hsub : EulOut
      (((clearedKeys s).filter (fun k => k ≠ k0)).map (fun k => (k, lookupS s k)))
      (rec (((clearedKeys s).filter (fun k => k ≠ k0)).map (fun k => (k, lookupS s k))))) :
    ∃ stF outF,
      outerStepSeq rec (s, clearedKeys s, []) k0 = (stF, clearedKeys stF, outF) ∧
      EulOut s outF ∧ (∀ k, lookupS stF k = []) := by
  obtain ⟨st2, out2, ck2, heqS, -, houtF, hempty⟩ :=
    pass_core hknd hvnd hk0 hlen2 _ hsub
  have hthis : lookupS s k0 ≠ [] := (mem_clearedKeys_iff hknd k0).mp hk0
  have hok_ne : (clearedKeys s).filter (fun k => k ≠ k0) ≠ [] := by
    obtain ⟨b, hb, hbne⟩ := exists_other_mem (clearedKeys_nodup hknd) hlen2 k0
    intro hc
    have : b ∈ (clearedKeys s).filter (fun k => k ≠ k0) :=
      List.mem_filter.mpr ⟨hb, by simpa using hbne⟩
    rw [hc] at this
    exact absurd this (List.not_mem_nil b)
  refine ⟨if lookupS st2 k0 ≠ [] then setValS st2 k0 [] else st2,
    if lookupS st2 k0 ≠ [] then out2 ++ [([k0], lookupS st2 k0)] else out2,
    ?_, houtF, hempty⟩
  simp only [outerStepSeq]
  rw [if_neg (by push_neg; exact ⟨hthis, hok_ne⟩)]
  rw [heqS]

/-- A family with no cleared key has no elements: the empty output is a
correct decomposition. -/
theorem eulOut_of_cleared_nil {s : Sets K E} (hknd : KeysND s)
    (hc : clearedKeys s = []) : EulOut s [] := by
  refine ⟨⟨?_, ?_, ?_, ?_, ?_, ?_, List.Pairwise.nil, List.Pairwise.nil⟩, ?_⟩
  any_goals exact fun p hp => absurd hp (List.not_mem_nil p)
  intro k e he
  exfalso
  have hk : k ∈ clearedKeys s := by
    rw [mem_clearedKeys_iff hknd]
    intro hnil
    rw [hnil] at he
    exact absurd he (List.not_mem_nil e)
  rw [hc] at hk
  exact absurd hk (List.not_mem_nil k)

/-- The outer iteration for the only cleared key is a no-op: its
complementary key list is empty. -/
theorem outerStep_single_key {rec : Sets K E → List (RegionT K E)}
    {st : Sets K E} {out : List (RegionT K E)} {k : K} :
    outerStepSeq rec (st, [k], out) k = (st, [k], out) := by
  simp only [outerStepSeq]
  rw [if_pos (Or.inr (by simp))]

/-- Correctness of the fully-consumed generator, by induction on the fuel
(any fuel of at least the number of entries suffices: each recursive call
drops the current key).  The hypothesis rules out exactly the one broken
configuration: a single non-empty key in a larger family, where the
singleton branch reads `list(sets_.values())[0]` — the first dict value —
instead of the value of the cleared key.  Every recursive call has all
values non-empty (the complementary family only collects currently
non-empty keys), so the disjunct keeps the induction closed. -/
theorem eulerGen_spec (fuel : Nat) :
    ∀ (s : Sets K E), KeysND s → ValsND s →
      ((∀ p ∈ s, p.2 ≠ []) ∨ (clearedKeys s).length ≠ 1) →
      s.length ≤ fuel → EulOut s (eulerGen fuel s) := by
  induction fuel with
  | zero =>
    intro s hknd hvnd hgood hlen
    have hs : s = [] := List.length_eq_zero.mp (Nat.le_zero.mp hlen)
    subst hs
    exact eulOut_of_cleared_nil hknd rfl
  | succ fuel ih =>
    intro s hknd hvnd hgood hlen
    have hval : (validateDict s).2 = s := by rw [validateDict_of_valsND hvnd]
    have hgen : eulerGen (fuel + 1) s =
        ((clearedKeys s).foldl (outerStepSeq (eulerGen fuel))
          (s, clearedKeys s,
            match clearedKeys s with
            | [k] => [([k], firstVal s)]
            | _ => [])).2.2 := by
      simp only [eulerGen]
      rw [hval]
    rcases hc : clearedKeys s with _ | ⟨k0, _ | ⟨k1, krest⟩⟩
    · -- no non-empty key: nothing is yielded
      have hout : eulerGen (fuel + 1) s = [] := by
        rw [hgen, hc]
        rfl
      rw [hout]
      exact eulOut_of_cleared_nil hknd hc
    · -- exactly one key: the singleton branch yields it whole
      have hne : ∀ p ∈ s, p.2 ≠ [] := by
        refine hgood.resolve_right ?_
        rw [hc]
        simp
      have hck : keysOf s = [k0] := by
        rw [← clearedKeys_eq_keys hne, hc]
      obtain ⟨v, hs⟩ : ∃ v, s = [(k0, v)] := by
        match s, hck with
        | [(k, v)], hck =>
          simp only [keysOf, List.map_cons, List.map_nil, List.cons.injEq] at hck
          exact ⟨v, by rw [hck.1]⟩
      subst hs
      have hlook : lookupS [(k0, v)] k0 = v := by simp [lookupS]
      have hout : eulerGen (fuel + 1) [(k0, v)] = [([k0], v)] := by
        rw [hgen, hc]
        show (List.foldl (outerStepSeq (eulerGen fuel))
          ([(k0, v)], [k0], [([k0], v)]) [k0]).2.2 = [([k0], v)]
        rw [List.foldl_cons, List.foldl_nil, outerStep_single_key]
      rw [hout]
      have hvnd0 : v.Nodup := hvnd (k0, v) (List.mem_cons_self _ _)
      have hvne : v ≠ [] := hne (k0, v) (List.mem_cons_self _ _)
      refine ⟨⟨?_, ?_, ?_, ?_, ?_, ?_, ?_, ?_⟩, ?_⟩
      · intro p hp e he k
        rcases List.mem_singleton.mp hp with rfl
        dsimp only at he ⊢
        constructor
        · intro hk
          rcases List.mem_singleton.mp hk with rfl
          rw [hlook]
          exact he
        · intro hek
          by_cases hkk : k = k0
          · rw [hkk]
            exact List.mem_singleton_self _
          · exfalso
            have : lookupS [(k0, v)] k = [] := by
              simp [lookupS, hkk]
            rw [this] at hek
            exact absurd hek (List.not_mem_nil e)
      · intro p hp
        rcases List.mem_singleton.mp hp with rfl
        exact hvnd0
      · intro p hp
        rcases List.mem_singleton.mp hp with rfl
        exact hvne
      · intro p hp
        rcases List.mem_singleton.mp hp with rfl
        exact List.sorted_singleton k0
      · intro p hp
        rcases List.mem_singleton.mp hp with rfl
        exact List.nodup_singleton k0
      · intro p hp
        rcases List.mem_singleton.mp hp with rfl
        simp
      · exact List.pairwise_singleton _ _
      · exact List.pairwise_singleton _ _
      · intro k e he
        by_cases hkk : k = k0
        · rw [hkk, hlook] at he
          exact ⟨([k0], v), List.mem_singleton_self _, he⟩
        · exfalso
          have : lookupS [(k0, v)] k = [] := by simp [lookupS, hkk]
          rw [this] at he
          exact absurd he (List.not_mem_nil e)
    · -- at least two non-empty keys: the first productive pass does it all
      have hk0 : k0 ∈ clearedKeys s := by
        rw [hc]
        exact List.mem_cons_self _ _
      have hlen2 : 2 ≤ (clearedKeys s).length := by
        rw [hc]
        simp only [List.length_cons]
        omega
      obtain ⟨hcknd, hcvnd, hcne, hclt⟩ := csets_facts hknd hvnd hk0
      have hsub := ih _ hcknd hcvnd (Or.inl hcne) (by omega)
      obtain ⟨stF, outF, hstep, houtF, hempty⟩ :=
        outerStep_pass (eulerGen fuel) hknd hvnd hk0 hlen2 hsub
      have hhead : (match clearedKeys s with
          | [k] => [([k], firstVal s)]
          | _ => ([] : List (RegionT K E))) = [] := by
        rw [hc]
      have hout : eulerGen (fuel + 1) s = outF := by
        rw [hgen, hhead]
        rw [hc] at hstep ⊢
        rw [List.foldl_cons, hstep, outerFold_noop _ _ _ _ hempty]
      rw [hout]
      exact houtF

/-- The singleton branch (`core.py` 50–53): with exactly one cleared key the
generator yields one pair with that key and the FIRST dict value
(`list(sets_.values())[0]`) — whether or not it belongs to the cleared key —
and the outer loop contributes nothing. -/
theorem eulerGen_singleton (fuel : Nat) {s : Sets K E} (hvnd : ValsND s)
    {k : K} (hc : clearedKeys s = [k]) :
    eulerGen (fuel + 1) s = [([k], firstVal s)] := by
  have hval : (validateDict s).2 = s := by rw [validateDict_of_valsND hvnd]
  have hgen : eulerGen (fuel + 1) s =
      ((clearedKeys s).foldl (outerStepSeq (eulerGen fuel))
        (s, clearedKeys s,
          match clearedKeys s with
          | [k] => [([k], firstVal s)]
          | _ => [])).2.2 := by
    simp only [eulerGen]
    rw [hval]
  rw [hgen, hc]
  show (List.foldl (outerStepSeq (eulerGen fuel))
    (s, [k], [([k], firstVal s)]) [k]).2.2 = _
  rw [List.foldl_cons, List.foldl_nil, outerStep_single_key]

/-- `list(euler_generator(sets))` on a validated family whose cleared-key
count is not one is an exact, complete, disjoint decomposition. -/
theorem eulerList_spec {s : Sets K E} (hknd : KeysND s) (hvnd : ValsND s)
    (hne1 : (clearedKeys s).length ≠ 1) : EulOut s (eulerList s) :=
  eulerGen_spec (s.length + 1) s hknd hvnd (Or.inr hne1) (by omega)

theorem eulerList_singleton {s : Sets K E} (hvnd : ValsND s)
    {k : K} (hc : clearedKeys s = [k]) :
    eulerList s = [([k], firstVal s)] :=
  eulerGen_singleton s.length hvnd hc

/-- Exactness also holds for the (possibly wrong-valued) singleton yield:
whenever the first dict value is non-empty it belongs to the unique cleared
key, and its elements live in no other set. -/
theorem singleton_exact {s : Sets K E} (hknd : KeysND s) {k : K}
    (hc : clearedKeys s = [k]) :
    ∀ e ∈ firstVal s, ∀ k', k' ∈ ([k] : List K) ↔ e ∈ lookupS s k' := by
  intro e he k'
  cases s with
  | nil => exact absurd he (List.not_mem_nil e)
  | cons p t =>
    obtain ⟨p1, p2⟩ := p
    have he' : e ∈ p2 := he
    have hp2 : p2 ≠ [] := by
      intro h
      rw [h] at he'
      exact absurd he' (List.not_mem_nil e)
    have hck : p1 :: clearedKeys t = [k] := by
      have := clearedKeys_cons (p1, p2) t
      rw [if_neg hp2] at this
      rw [← this, hc]
    have hp1k : p1 = k := (List.cons.injEq _ _ _ _).mp hck |>.1
    have hct : clearedKeys t = [] := (List.cons.injEq _ _ _ _).mp hck |>.2
    have hkndt : KeysND t := (List.nodup_cons.mp hknd).2
    constructor
    · intro hk'
      rw [List.mem_singleton.mp hk', ← hp1k]
      simp only [lookupS, if_pos rfl]
      exact he'
    · intro hek'
      rw [List.mem_singleton]
      by_contra hk'
      have hk'p1 : k' ≠ p1 := fun h => hk' (h.trans hp1k)
      simp only [lookupS, if_neg hk'p1] at hek'
      have : k' ∈ clearedKeys t := by
        rw [mem_clearedKeys_iff hkndt]
        intro hnil
        rw [hnil] at hek'
        exact absurd hek' (List.not_mem_nil e)
      rw [hct] at this
      exact absurd this (List.not_mem_nil k')

/-! ### Lemmas about `dict(...)` built from a pair sequence -/

theorem pyDictIns_mem {α β : Type} [DecidableEq α] {acc : List (α × β)}
    {kv p : α × β} (h : p ∈ pyDictIns acc kv) : p ∈ acc ∨ p = kv := by
  unfold pyDictIns at h
  by_cases hc : acc.any (fun q => q.1 = kv.1)
  · rw [if_pos hc] at h
    obtain ⟨q, hq, hpq⟩ := List.mem_map.mp h
    by_cases hqk : q.1 = kv.1
    · rw [if_pos hqk] at hpq
      right
      rw [← hpq, hqk]
    · rw [if_neg hqk] at hpq
      exact Or.inl (hpq ▸ hq)
  · rw [if_neg hc] at h
    rcases List.mem_append.mp h with h' | h'
    · exact Or.inl h'
    · exact Or.inr (List.mem_singleton.mp h')

theorem pyDictIns_keys_mono {α β : Type} [DecidableEq α]
    {acc : List (α × β)} {kv : α × β} {a : α} (h : a ∈ acc.map Prod.fst) :
    a ∈ (pyDictIns acc kv).map Prod.fst := by
  unfold pyDictIns
  by_cases hc : acc.any (fun q => q.1 = kv.1)
  · rw [if_pos hc]
    obtain ⟨q, hq, rfl⟩ := List.mem_map.mp h
    apply List.mem_map.mpr
    refine ⟨if q.1 = kv.1 then (q.1, kv.2) else q, List.mem_map_of_mem _ hq, ?_⟩
    by_cases hqk : q.1 = kv.1 <;> simp [hqk]
  · rw [if_neg hc, List.map_append]
    exact List.mem_append_left _ h

theorem pyDictIns_key_self {α β : Type} [DecidableEq α]
    (acc : List (α × β)) (kv : α × β) :
    kv.1 ∈ (pyDictIns acc kv).map Prod.fst := by
  unfold pyDictIns
  by_cases hc : acc.any (fun q => q.1 = kv.1)
  · rw [if_pos hc]
    obtain ⟨q, hq, hqk⟩ := List.any_eq_true.mp hc
    apply List.mem_map.mpr
    refine ⟨if q.1 = kv.1 then (q.1, kv.2) else q, List.mem_map_of_mem _ hq, ?_⟩
    have hqk' : q.1 = kv.1 := by simpa using hqk
    simp [hqk']
  · rw [if_neg hc, List.map_append]
    exact List.mem_append_right _ (by simp)

theorem pyDict_fold_sub {α β : Type} [DecidableEq α] :
    ∀ (l acc : List (α × β)), ∀ p ∈ List.foldl pyDictIns acc l,
      p ∈ acc ∨ p ∈ l := by
  intro l
  induction l with
  | nil =>
    intro acc p hp
    exact Or.inl hp
  | cons kv t ih =>
    intro acc p hp
    rw [List.foldl_cons] at hp
    rcases ih (pyDictIns acc kv) p hp with h | h
    · rcases pyDictIns_mem h with h' | h'
      · exact Or.inl h'
      · exact Or.inr (h' ▸ List.mem_cons_self _ _)
    · exact Or.inr (List.mem_cons_of_mem _ h)

theorem mem_pyDict_sub {α β : Type} [DecidableEq α] {l : List (α × β)}
    {p : α × β} (h : p ∈ pyDict l) : p ∈ l := by
  rcases pyDict_fold_sub l [] p h with h' | h'
  · exact absurd h' (List.not_mem_nil p)
  · exact h'

theorem pyDict_key_witness {α β : Type} [DecidableEq α] :
    ∀ (l acc : List (α × β)) (R : α),
      (R ∈ acc.map Prod.fst ∨ R ∈ l.map Prod.fst) →
      ∃ p, p ∈ List.foldl pyDictIns acc l ∧ p.1 = R ∧ (p ∈ acc ∨ p ∈ l) := by
  intro l
  induction l with
  | nil =>
    intro acc R h
    rcases h with h | h
    · obtain ⟨p, hp, hpR⟩ := List.mem_map.mp h
      exact ⟨p, hp, hpR, Or.inl hp⟩
    · exact absurd h (List.not_mem_nil R)
  | cons kv t ih =>
    intro acc R h
    have hkey : R ∈ (pyDictIns acc kv).map Prod.fst ∨ R ∈ t.map Prod.fst := by
      rcases h with h | h
      · exact Or.inl (pyDictIns_keys_mono h)
      · rw [List.map_cons, List.mem_cons] at h
        rcases h with rfl | h
        · exact Or.inl (pyDictIns_key_self acc kv)
        · exact Or.inr h
    obtain ⟨p, hp, hpR, hsrc⟩ := ih (pyDictIns acc kv) R hkey
    rw [← List.foldl_cons] at hp
    refine ⟨p, hp, hpR, ?_⟩
    rcases hsrc with h' | h'
    · rcases pyDictIns_mem h' with h'' | h''
      · exact Or.inl h''
      · exact Or.inr (h'' ▸ List.mem_cons_self _ _)
    · exact Or.inr (List.mem_cons_of_mem _ h')

/-- Membership of a `(key, element)` pair in `dict(pairs)`: when all pair
entries sharing a key carry membership-equal element lists (true of every
list the engine produces), the dict has the same pair membership as the
list. -/
theorem pyDict_pair_iff {l : List (RegionT K E)}
    (hcoh : ∀ p ∈ l, ∀ q ∈ l, p.1 = q.1 → (∀ e, e ∈ p.2 ↔ e ∈ q.2)) :
    ∀ (R : List K) (e : E),
      (∃ p ∈ pyDict l, p.1 = R ∧ e ∈ p.2) ↔ (∃ p ∈ l, p.1 = R ∧ e ∈ p.2) := by
  intro R e
  constructor
  · rintro ⟨p, hp, hpR, hpe⟩
    exact ⟨p, mem_pyDict_sub hp, hpR, hpe⟩
  · rintro ⟨q, hq, hqR, hqe⟩
    have hkey : R ∈ l.map Prod.fst := by
      rw [← hqR]
      exact List.mem_map_of_mem _ hq
    obtain ⟨p, hp, hpR, hsrc⟩ := pyDict_key_witness l [] R (Or.inr hkey)
    rcases hsrc with h | h
    · exact absurd h (List.not_mem_nil p)
    · exact ⟨p, hp, hpR, (hcoh p h q hq (hpR.trans hqR.symm) e).mpr hqe⟩

/-! ### The canonical pair relation -/

/-- The mathematical content of the decomposition: the pair `(R, e)` belongs
to the Euler diagram of `s` iff `e` occurs somewhere in `s` and `R` is the
ascending duplicate-free tuple of exactly the keys whose set contains `e`. -/
def CanonicalPair (s : Sets K E) (R : List K) (e : E) : Prop :=
  (∃ k, e ∈ lookupS s k) ∧ R.Sorted (· ≤ ·) ∧ R.Nodup ∧
    ∀ k, (k ∈ R ↔ e ∈ lookupS s k)

/-- Any output satisfying `EulOut` has exactly the canonical pairs. -/
theorem eulOut_pair_iff {s : Sets K E} {out : List (RegionT K E)}
    (hEul : EulOut s out) (R : List K) (e : E) :
    (∃ p ∈ out, p.1 = R ∧ e ∈ p.2) ↔ CanonicalPair s R e := by
  constructor
  · rintro ⟨p, hp, rfl, hpe⟩
    obtain ⟨k1, hk1⟩ := List.exists_mem_of_ne_nil p.1 (hEul.regNe p hp)
    refine ⟨⟨k1, (hEul.exact p hp e hpe k1).mp hk1⟩,
      hEul.regSorted p hp, hEul.regNodup p hp, hEul.exact p hp e hpe⟩
  · rintro ⟨⟨k1, hk1⟩, hRs, hRnd, hRmem⟩
    obtain ⟨q, hq, hqe⟩ := hEul.complete k1 e hk1
    refine ⟨q, hq, ?_, hqe⟩
    exact sorted_nodup_ext (hEul.regSorted q hq) hRs (hEul.regNodup q hq) hRnd
      (fun a => (hEul.exact q hq e hqe a).trans (hRmem a).symm)

/-- Entries of an `EulOut` output with the same region key are identical
(region keys are pairwise distinct). -/
theorem eulOut_coherent {s : Sets K E} {out : List (RegionT K E)}
    (hEul : EulOut s out) :
    ∀ p ∈ out, ∀ q ∈ out, p.1 = q.1 → (∀ e, e ∈ p.2 ↔ e ∈ q.2) := by
  intro p hp q hq hpq e
  by_cases hpq' : p = q
  · rw [hpq']
  · exfalso
    have hsymm : Symmetric (fun p q : RegionT K E => p.1 ≠ q.1) :=
      fun _ _ h => h.symm
    exact (hEul.regDistinct.forall hsymm) hp hq hpq' hpq

/-- Pointwise version: the element list of an entry of an `EulOut` output is
exactly the canonical region of its key. -/
theorem eulOut_elem_iff {s : Sets K E} {out : List (RegionT K E)}
    (hEul : EulOut s out) {p : RegionT K E} (hp : p ∈ out) :
    ∀ e, e ∈ p.2 ↔ CanonicalPair s p.1 e := by
  intro e
  constructor
  · intro he
    obtain ⟨k1, hk1⟩ := List.exists_mem_of_ne_nil p.1 (hEul.regNe p hp)
    exact ⟨⟨k1, (hEul.exact p hp e he k1).mp hk1⟩, hEul.regSorted p hp,
      hEul.regNodup p hp, hEul.exact p hp e he⟩
  · intro hcan
    obtain ⟨q, hq, hqp, hqe⟩ := (eulOut_pair_iff hEul p.1 e).mpr hcan
    exact (eulOut_coherent hEul p hp q hq hqp.symm e).mpr hqe

/-- The complementary key list is non-empty whenever at least two keys are
cleared. -/
theorem other_keys_ne_nil {s : Sets K E} (hknd : KeysND s)
    (hlen2 : 2 ≤ (clearedKeys s).length) (k0 : K) :
    (clearedKeys s).filter (fun k => k ≠ k0) ≠ [] := by
  obtain ⟨b, hb, hbne⟩ := exists_other_mem (clearedKeys_nodup hknd) hlen2 k0
  intro hc
  have hmem : b ∈ (clearedKeys s).filter (fun k => k ≠ k0) :=
    List.mem_filter.mpr ⟨hb, by simpa using hbne⟩
  rw [hc] at hmem
  exact absurd hmem (List.not_mem_nil b)

/-- Correctness of one worker (`euler_generator_worker`) on the pristine
validated family, for any cleared key, when at least two keys are cleared:
its `results` list is an exact, complete, disjoint decomposition of the
whole family. -/
theorem workerRun_spec {s : Sets K E} (hknd : KeysND s) (hvnd : ValsND s)
    {k0 : K} (hk0 : k0 ∈ clearedKeys s)
    (hlen2 : 2 ≤ (clearedKeys s).length) :
    EulOut s (workerRun s (clearedKeys s) k0) := by
  obtain ⟨hcknd, hcvnd, hcne, hclt⟩ := csets_facts hknd hvnd hk0
  have hsub : EulOut
      (((clearedKeys s).filter (fun k => k ≠ k0)).map (fun k => (k, lookupS s k)))
      (eulerList (((clearedKeys s).filter (fun k => k ≠ k0)).map
        (fun k => (k, lookupS s k)))) :=
    eulerGen_spec _ _ hcknd hcvnd (Or.inl hcne) (by omega)
  obtain ⟨st2, out2, ck2, -, heqW, houtF, -⟩ :=
    pass_core hknd hvnd hk0 hlen2 _ hsub
  have hthis : lookupS s k0 ≠ [] := (mem_clearedKeys_iff hknd k0).mp hk0
  have hrun : workerRun s (clearedKeys s) k0 =
      (if lookupS st2 k0 ≠ [] then out2 ++ [([k0], lookupS st2 k0)] else out2) := by
    simp only [workerRun]
    rw [if_neg (by
      rintro ⟨-, hlen1⟩
      omega)]
    rw [if_neg (by push_neg; exact ⟨hthis, other_keys_ne_nil hknd hlen2 k0⟩)]
    rw [heqW]
  rw [hrun]
  exact houtF

instance (s : Sets K E) : Decidable (KeysND s) := by
  unfold KeysND
  infer_instance

instance (s : Sets K E) : Decidable (ValsND s) := by
  unfold ValsND
  exact List.decidableBAll _ s

/-! ### Claim theorems for the core engine -/

/-- **C1** — Exactness of the core decomposition: for every input family of
named sets (distinct keys, duplicate-free values), every pair of the result
of `euler` (= `euler_func`, the non-clustered path) and every element `e` in
its elements-list, the region key consists of exactly the input keys whose
set contains `e` — no more, no fewer. -/
theorem C1_core_exactness (s : Sets K E) (hknd : KeysND s) (hvnd : ValsND s) :
    ∀ p ∈ eulerFunc s, ∀ e ∈ p.2, ∀ k, (k ∈ p.1 ↔ e ∈ lookupS s k) := by
  intro p hp e he k
  have hp' : p ∈ eulerList s := mem_pyDict_sub hp
  by_cases h1 : (clearedKeys s).length = 1
  · obtain ⟨k1, hck⟩ := List.length_eq_one.mp h1
    rw [eulerList_singleton hvnd hck] at hp'
    rcases List.mem_singleton.mp hp' with rfl
    exact singleton_exact hknd hck e he k
  · exact (eulerList_spec hknd hvnd h1).exact p hp' e he k

/-- Witness for C1 at a concrete input (keys are single characters). -/
theorem C1_core_exactness_witness :
    KeysND [('a', [1, 2]), ('b', [2, 3])] ∧
    ValsND [('a', [1, 2]), ('b', [2, 3])] ∧
    ∀ p ∈ eulerFunc [('a', [1, 2]), ('b', [2, 3])], ∀ e ∈ p.2, ∀ k,
      (k ∈ p.1 ↔ e ∈ lookupS [('a', [1, 2]), ('b', [2, 3])] k) :=
  ⟨by decide, by decide,
    C1_core_exactness [('a', [1, 2]), ('b', [2, 3])] (by decide) (by decide)⟩

/-- **C4** — Sequential/parallel equivalence: on any family with distinct
keys and duplicate-free values, `euler(sets)` and `euler_parallel(sets)`
have the same `(region key, element)` membership — the results agree as sets
of (key, elements) pairs. -/
theorem C4_seq_parallel_equiv (s : Sets K E) (hknd : KeysND s)
    (hvnd : ValsND s) :
    ∀ (R : List K) (e : E),
      (∃ p ∈ eulerFunc s, p.1 = R ∧ e ∈ p.2) ↔
      (∃ p ∈ eulerParallelFunc s, p.1 = R ∧ e ∈ p.2) := by
  intro R e
  have hval : (validateDict s).2 = s := by rw [validateDict_of_valsND hvnd]
  rcases hc : clearedKeys s with _ | ⟨k0, _ | ⟨k1, krest⟩⟩
  · -- no cleared key: both dicts have no pair at all
    have hparnil : eulerParallelList s = [] := by
      simp only [eulerParallelList]
      rw [hval, hc]
      rfl
    have hEulS := eulerList_spec hknd hvnd (by rw [hc]; simp)
    apply iff_of_false
    · intro hpair
      have hcan := (eulOut_pair_iff hEulS R e).mp
        ((pyDict_pair_iff (eulOut_coherent hEulS) R e).mp hpair)
      obtain ⟨⟨k', hk'⟩, -⟩ := hcan
      have hkc : k' ∈ clearedKeys s := by
        rw [mem_clearedKeys_iff hknd]
        intro hnil
        rw [hnil] at hk'
        exact absurd hk' (List.not_mem_nil e)
      rw [hc] at hkc
      exact absurd hkc (List.not_mem_nil k')
    · rintro ⟨p, hp, -, -⟩
      have := mem_pyDict_sub hp
      rw [hparnil] at this
      exact absurd this (List.not_mem_nil p)
  · -- exactly one cleared key: both paths run the identical singleton branch
    have hseq : eulerList s = [([k0], firstVal s)] := eulerList_singleton hvnd hc
    have hpar : eulerParallelList s = [([k0], firstVal s)] := by
      simp only [eulerParallelList]
      rw [hval, hc]
    show (∃ p ∈ pyDict (eulerList s), p.1 = R ∧ e ∈ p.2) ↔
      (∃ p ∈ pyDict (eulerParallelList s), p.1 = R ∧ e ∈ p.2)
    rw [hseq, hpar]
  · -- at least two cleared keys: both sides realise the canonical relation
    have hlen2 : 2 ≤ (clearedKeys s).length := by
      rw [hc]
      simp only [List.length_cons]
      omega
    have hne1 : (clearedKeys s).length ≠ 1 := by omega
    have hEulS := eulerList_spec hknd hvnd hne1
    have hpar : eulerParallelList s =
        ((clearedKeys s).map (fun k => workerRun s (clearedKeys s) k)).flatten := by
      simp only [eulerParallelList]
      rw [hval]
      rw [hc]
    have hparmem : ∀ p, p ∈ eulerParallelList s ↔
        ∃ k ∈ clearedKeys s, p ∈ workerRun s (clearedKeys s) k := by
      intro p
      rw [hpar, List.mem_flatten]
      constructor
      · rintro ⟨L, hL, hpL⟩
        obtain ⟨k, hk, rfl⟩ := List.mem_map.mp hL
        exact ⟨k, hk, hpL⟩
      · rintro ⟨k, hk, hpk⟩
        exact ⟨_, List.mem_map_of_mem _ hk, hpk⟩
    have hworker : ∀ k ∈ clearedKeys s, EulOut s (workerRun s (clearedKeys s) k) :=
      fun k hk => workerRun_spec hknd hvnd hk hlen2
    have hcohP : ∀ p ∈ eulerParallelList s, ∀ q ∈ eulerParallelList s,
        p.1 = q.1 → ∀ e', e' ∈ p.2 ↔ e' ∈ q.2 := by
      intro p hp q hq hpq e'
      obtain ⟨kp, hkp, hp'⟩ := (hparmem p).mp hp
      obtain ⟨kq, hkq, hq'⟩ := (hparmem q).mp hq
      rw [eulOut_elem_iff (hworker kp hkp) hp' e',
        eulOut_elem_iff (hworker kq hkq) hq' e', hpq]
    have hseqIff : (∃ p ∈ eulerFunc s, p.1 = R ∧ e ∈ p.2) ↔ CanonicalPair s R e :=
      (pyDict_pair_iff (eulOut_coherent hEulS) R e).trans (eulOut_pair_iff hEulS R e)
    have hparIff : (∃ p ∈ eulerParallelFunc s, p.1 = R ∧ e ∈ p.2) ↔
        CanonicalPair s R e := by
      refine (pyDict_pair_iff hcohP R e).trans ?_
      constructor
      · rintro ⟨p, hp, hpR, hpe⟩
        obtain ⟨k', hk', hp'⟩ := (hparmem p).mp hp
        rw [← hpR]
        exact (eulOut_elem_iff (hworker k' hk') hp' e).mp hpe
      · intro hcan
        have hk0 : k0 ∈ clearedKeys s := by
          rw [hc]
          exact List.mem_cons_self _ _
        obtain ⟨p, hp, hpR, hpe⟩ := (eulOut_pair_iff (hworker k0 hk0) R e).mpr hcan
        exact ⟨p, (hparmem p).mpr ⟨k0, hk0, hp⟩, hpR, hpe⟩
    exact hseqIff.trans hparIff.symm

/-- Witness for C4 at a concrete input. -/
theorem C4_seq_parallel_equiv_witness :
    KeysND [('a', [1, 2]), ('b', [2, 3])] ∧
    ValsND [('a', [1, 2]), ('b', [2, 3])] ∧
    ((∃ p ∈ eulerFunc [('a', [1, 2]), ('b', [2, 3])], p.1 = ['a', 'b'] ∧ 2 ∈ p.2) ↔
     (∃ p ∈ eulerParallelFunc [('a', [1, 2]), ('b', [2, 3])],
       p.1 = ['a', 'b'] ∧ 2 ∈ p.2)) :=
  ⟨by decide, by decide,
    C4_seq_parallel_equiv [('a', [1, 2]), ('b', [2, 3])] (by decide) (by decide)
      ['a', 'b'] 2⟩

/-- The spec's worked example (keys rendered as characters). -/
def exampleSets : Sets Char Nat :=
  [('a', [1, 2, 3]), ('b', [2, 3, 4]), ('c', [3, 4, 5]), ('d', [3, 5, 6])]

/-- The dict the spec requires for the worked example. -/
def exampleExpected : List (RegionT Char Nat) :=
  [(['a', 'b'], [2]), (['b', 'c'], [4]), (['a', 'b', 'c', 'd'], [3]),
   (['c', 'd'], [5]), (['d'], [6]), (['a'], [1])]

/-- **C2** — the concrete example:
`euler({'a':[1,2,3],'b':[2,3,4],'c':[3,4,5],'d':[3,5,6]})` equals
`{('a','b'):[2], ('b','c'):[4], ('a','b','c','d'):[3], ('c','d'):[5],
('d',):[6], ('a',):[1]}`.  Stated as: the computed entry list is a
permutation of the expected one and the expected keys are pairwise distinct
— i.e. the two dicts are equal (Python dict equality ignores entry order;
every element list here is a singleton, so list order is immaterial). -/
theorem C2_concrete_example :
    (eulerFunc exampleSets).Perm exampleExpected ∧
    (exampleExpected.map Prod.fst).Nodup := by decide

/-- The input exposing the broken singleton branch: the only non-empty key
is not the first dict entry. -/
def c3FailingInput : Sets Char Nat := [('a', []), ('b', [1])]

/-- **C3** — refuted on the code: on `{'a': [], 'b': [1]}` exactly one
non-empty key remains, and the singleton branch yields
`(('b',), list(sets_.values())[0])` — the value of the FIRST dict entry,
which is the empty `'a'` value.  The union of the yielded elements is empty
while the input union is `{1}`: completeness fails.  (The spec's step —
"yield that key … with all its elements" — is clearly the intent; the code
reads the wrong value.) -/
theorem C3_completeness_failure :
    eulerFunc c3FailingInput = [(['b'], [])] ∧
    1 ∈ lookupS c3FailingInput 'b' ∧
    ∀ p ∈ eulerList c3FailingInput, 1 ∉ p.2 := by decide

/-- **C8** — malformed-input failure: consuming `euler_generator(input)`
raises `TypeError` ("Ill-conditioned input… must be either a dict or array
of arrays") with no partial output exactly when the top-level input is
neither a mapping nor a sequence-of-sequences.  (A sequence-of-sequences is
not rejected with this failure — though it crashes with `AttributeError` at
`sets_.values()`, a different exception.) -/
theorem C8_type_error_iff (inp : PyInput K E) :
    eulerGenTop inp = Except.error PyErr.typeError ↔ inp = PyInput.otherIn := by
  cases inp <;> simp [eulerGenTop, validateTop, Except.map]

/-- **C10** — the empty-mapping edge case: `euler_generator({})` yields
nothing with no warning and no error, and `euler({})` (which takes the
non-clustered path, as `0 > 30` fails) returns `{}`. -/
theorem C10_empty_input :
    eulerGenTop (PyInput.dictIn ([] : Sets Char Nat)) = Except.ok (false, []) ∧
    eulerFunc ([] : Sets Char Nat) = [] := ⟨rfl, rfl⟩

/-! ### Claim C5 — the flatten merge -/

theorem pyDictIns_of_not_any {α β : Type} [DecidableEq α]
    {acc : List (α × β)} {kv : α × β}
    (h : ¬ (acc.any (fun q => q.1 = kv.1) = true)) :
    pyDictIns acc kv = acc ++ [kv] := by
  unfold pyDictIns
  rw [if_neg h]

/-- The fold of the flatten loop, from any accumulator whose cluster-scoped
keys avoid the keys still to be processed: every step appends (nothing is
ever overwritten), so the length grows by one per entry, old entries
persist, each processed entry is retained under its plain or scoped key, and
scoped entries only appear for a region key that is also present plain. -/
theorem flattenFold_spec :
    ∀ (rem : List ((Nat × List K) × List E)) (acc : List (FlatKey K × List E)),
      (rem.map Prod.fst).Nodup →
      (∀ cid kt, FlatKey.scoped cid kt ∈ acc.map Prod.fst →
        (cid, kt) ∉ rem.map Prod.fst) →
      (List.foldl flattenStep acc rem).length = acc.length + rem.length ∧
      (∀ x ∈ acc, x ∈ List.foldl flattenStep acc rem) ∧
      (∀ fk ∈ acc.map Prod.fst, fk ∈ (List.foldl flattenStep acc rem).map Prod.fst) ∧
      (∀ p ∈ rem, (FlatKey.plain p.1.2, p.2) ∈ List.foldl flattenStep acc rem ∨
        (FlatKey.scoped p.1.1 p.1.2, p.2) ∈ List.foldl flattenStep acc rem) ∧
      (∀ x ∈ List.foldl flattenStep acc rem, x ∈ acc ∨ ∃ p ∈ rem,
        x = (FlatKey.plain p.1.2, p.2) ∨
        (x = (FlatKey.scoped p.1.1 p.1.2, p.2) ∧
          FlatKey.plain p.1.2 ∈ (List.foldl flattenStep acc rem).map Prod.fst)) := by
  intro rem
  induction rem with
  | nil =>
    intro acc hnd hdisj
    exact ⟨by simp, fun x hx => hx, fun fk hfk => hfk,
      fun p hp => absurd hp (List.not_mem_nil p),
      fun x hx => Or.inl hx⟩
  | cons p t ih =>
    intro acc hnd hdisj
    have hndt : (t.map Prod.fst).Nodup := (List.nodup_cons.mp hnd).2
    have hp1t : p.1 ∉ t.map Prod.fst := (List.nodup_cons.mp hnd).1
    -- the step appends exactly one entry
    obtain ⟨kv, hkv, hacc'⟩ :
        ∃ kv : FlatKey K × List E,
          ((kv = (FlatKey.plain p.1.2, p.2)) ∨
           (kv = (FlatKey.scoped p.1.1 p.1.2, p.2) ∧
             FlatKey.plain p.1.2 ∈ acc.map Prod.fst)) ∧
          flattenStep acc p = acc ++ [kv] := by
      unfold flattenStep
      by_cases hg : acc.any (fun q => q.1 = FlatKey.plain p.1.2)
      · rw [if_pos hg]
        have hplain : FlatKey.plain p.1.2 ∈ acc.map Prod.fst := by
          obtain ⟨q, hq, hq'⟩ := List.any_eq_true.mp hg
          have : q.1 = FlatKey.plain p.1.2 := by simpa using hq'
          rw [← this]
          exact List.mem_map_of_mem _ hq
        refine ⟨(FlatKey.scoped p.1.1 p.1.2, p.2), Or.inr ⟨rfl, hplain⟩, ?_⟩
        apply pyDictIns_of_not_any
        intro hc
        obtain ⟨q, hq, hq'⟩ := List.any_eq_true.mp hc
        have hq'' : q.1 = FlatKey.scoped p.1.1 p.1.2 := by simpa using hq'
        have : (p.1.1, p.1.2) ∉ ((p :: t).map Prod.fst) := by
          apply hdisj p.1.1 p.1.2
          rw [← hq'']
          exact List.mem_map_of_mem _ hq
        apply this
        simp
      · rw [if_neg hg]
        refine ⟨(FlatKey.plain p.1.2, p.2), Or.inl rfl, ?_⟩
        exact pyDictIns_of_not_any hg
    have hdisj' : ∀ cid kt, FlatKey.scoped cid kt ∈ (flattenStep acc p).map Prod.fst →
        (cid, kt) ∉ t.map Prod.fst := by
      intro cid kt hmem
      rw [hacc', List.map_append] at hmem
      rcases List.mem_append.mp hmem with h | h
      · intro hc
        exact hdisj cid kt h (List.mem_cons_of_mem _ hc)
      · have heq : FlatKey.scoped cid kt = kv.1 := by simpa using h
        rcases hkv with hkv | ⟨hkv, -⟩
        · rw [hkv] at heq
          exact absurd heq (by simp)
        · rw [hkv] at heq
          simp only [FlatKey.scoped.injEq] at heq
          intro hc
          apply hp1t
          have hpk : (cid, kt) = p.1 := by
            rw [heq.1, heq.2]
          exact hpk ▸ hc
    obtain ⟨hlen, hmono, hkeys, hproc, hsrc⟩ := ih (flattenStep acc p) hndt hdisj'
    rw [List.foldl_cons]
    have haccsub : ∀ x ∈ acc, x ∈ flattenStep acc p := by
      intro x hx
      rw [hacc']
      exact List.mem_append_left _ hx
    have hkvmem : kv ∈ flattenStep acc p := by
      rw [hacc']
      exact List.mem_append_right _ (List.mem_singleton_self _)
    have hkeysub : ∀ fk ∈ acc.map Prod.fst, fk ∈ (flattenStep acc p).map Prod.fst := by
      intro fk hfk
      rw [hacc', List.map_append]
      exact List.mem_append_left _ hfk
    refine ⟨?_, ?_, ?_, ?_, ?_⟩
    · rw [hlen, hacc']
      simp only [List.length_append, List.length_cons, List.length_nil]
      omega
    · intro x hx
      exact hmono x (haccsub x hx)
    · intro fk hfk
      exact hkeys fk (hkeysub fk hfk)
    · intro q hq
      rcases List.mem_cons.mp hq with rfl | hq'
      · rcases hkv with hkv | ⟨hkv, -⟩
        · left
          rw [← hkv]
          exact hmono kv hkvmem
        · right
          rw [← hkv]
          exact hmono kv hkvmem
      · exact hproc q hq'
    · intro x hx
      rcases hsrc x hx with h | ⟨q, hq, hq'⟩
      · rcases (by rw [hacc'] at h; exact List.mem_append.mp h :
            x ∈ acc ∨ x ∈ [kv]) with h' | h'
        · exact Or.inl h'
        · rcases List.mem_singleton.mp h' with rfl
          rcases hkv with hkv | ⟨hkv, hplain⟩
          · exact Or.inr ⟨p, List.mem_cons_self _ _, Or.inl hkv⟩
          · refine Or.inr ⟨p, List.mem_cons_self _ _, Or.inr ⟨hkv, ?_⟩⟩
            exact hkeys _ (hkeysub _ hplain)
      · exact Or.inr ⟨q, List.mem_cons_of_mem _ hq, hq'⟩

/-- The claim's property, as stated: an unprefixed region key appears in the
flattened diagram only when no other cluster produced the same region key. -/
def C5ClaimProp (g : List ((Nat × List K) × List E)) : Prop :=
  ∀ kt el, (FlatKey.plain kt, el) ∈ flattenMerge g →
    g.countP (fun p => p.1.2 = kt) ≤ 1

/-- **C5 counterexample** — with two clusters both producing region key
`('a',)`, the flattened diagram keeps the first entry UNPREFIXED (and only
the second cluster-prefixed), so the claim "a region key appears without a
cluster-id prefix only when no other cluster produced the same region key /
every colliding entry is retained in prefixed form" is false as stated. -/
theorem C5_counterexample :
    ¬ C5ClaimProp ([((0, ['a']), [1]), ((1, ['a']), [2])] :
      List ((Nat × List Char) × List Nat)) := by
  intro h
  have := h ['a'] [1] (by decide)
  simp at this

/-- **C5 amended** — in the flattened diagram nothing is silently
overwritten: there is exactly one output entry per input entry; every input
entry is retained, under its plain region key or its cluster-prefixed key;
and a cluster-prefixed entry occurs only when the same region key is also
present unprefixed (produced by an earlier cluster).  It is NOT true that
colliding entries are all prefixed: the first producer keeps the unprefixed
key. -/
theorem C5_flatten_no_overwrite (g : List ((Nat × List K) × List E))
    (hnd : (g.map Prod.fst).Nodup) :
    (flattenMerge g).length = g.length ∧
    (∀ p ∈ g, (FlatKey.plain p.1.2, p.2) ∈ flattenMerge g ∨
      (FlatKey.scoped p.1.1 p.1.2, p.2) ∈ flattenMerge g) ∧
    (∀ x ∈ flattenMerge g, ∃ p ∈ g,
      x = (FlatKey.plain p.1.2, p.2) ∨
      (x = (FlatKey.scoped p.1.1 p.1.2, p.2) ∧
        FlatKey.plain p.1.2 ∈ (flattenMerge g).map Prod.fst)) := by
  obtain ⟨hlen, -, -, hproc, hsrc⟩ :=
    flattenFold_spec g [] hnd (by
      intro cid kt hmem
      exact absurd hmem (List.not_mem_nil _))
  refine ⟨by simpa using hlen, hproc, ?_⟩
  intro x hx
  rcases hsrc x hx with h | h
  · exact absurd h (List.not_mem_nil x)
  · exact h

/-- Witness for the amended C5 at a concrete two-cluster collision. -/
theorem C5_flatten_no_overwrite_witness :
    (([((0, ['a']), [1]), ((1, ['a']), [2])] :
        List ((Nat × List Char) × List Nat)).map Prod.fst).Nodup ∧
    (flattenMerge ([((0, ['a']), [1]), ((1, ['a']), [2])] :
        List ((Nat × List Char) × List Nat))).length = 2 :=
  ⟨by decide,
    (C5_flatten_no_overwrite _ (by decide)).1⟩

/-! ### Claim C6 — cluster rebalancing -/

theorem mem_firstOccur {l : List Nat} {a : Nat} : a ∈ firstOccur l ↔ a ∈ l := by
  suffices h : ∀ (l : List Nat) (acc : List Nat),
      ∀ a, a ∈ l.foldl (fun acc a => if a ∈ acc then acc else acc ++ [a]) acc ↔
        (a ∈ acc ∨ a ∈ l) by
    rw [firstOccur, h]
    simp
  intro l
  induction l with
  | nil =>
    intro acc a
    simp
  | cons b t ih =>
    intro acc a
    rw [List.foldl_cons, ih]
    by_cases hb : b ∈ acc
    · rw [if_pos hb]
      constructor
      · rintro (h | h)
        · exact Or.inl h
        · exact Or.inr (List.mem_cons_of_mem _ h)
      · rintro (h | h)
        · exact Or.inl h
        · rcases List.mem_cons.mp h with rfl | h'
          · exact Or.inl hb
          · exact Or.inr h'
    · rw [if_neg hb]
      constructor
      · rintro (h | h)
        · rcases List.mem_append.mp h with h' | h'
          · exact Or.inl h'
          · exact Or.inr (List.mem_cons.mpr (Or.inl (List.mem_singleton.mp h')))
        · exact Or.inr (List.mem_cons_of_mem _ h)
      · rintro (h | h)
        · exact Or.inl (List.mem_append_left _ h)
        · rcases List.mem_cons.mp h with rfl | h'
          · exact Or.inl (List.mem_append_right _ (List.mem_singleton_self _))
          · exact Or.inr h'

theorem firstOccur_nodup (l : List Nat) : (firstOccur l).Nodup := by
  suffices h : ∀ (l acc : List Nat), acc.Nodup →
      (l.foldl (fun acc a => if a ∈ acc then acc else acc ++ [a]) acc).Nodup by
    exact h l [] List.nodup_nil
  intro l
  induction l with
  | nil =>
    intro acc hacc
    exact hacc
  | cons b t ih =>
    intro acc hacc
    rw [List.foldl_cons]
    by_cases hb : b ∈ acc
    · rw [if_pos hb]
      exact ih acc hacc
    · rw [if_neg hb]
      apply ih
      rw [List.nodup_append]
      exact ⟨hacc, List.nodup_singleton b, by simpa using hb⟩

theorem le_foldl_max (l : List Nat) (b : Nat) :
    ∀ a, a ∈ l ∨ a ≤ b → a ≤ l.foldl max b := by
  induction l generalizing b with
  | nil =>
    intro a h
    rcases h with h | h
    · exact absurd h (List.not_mem_nil a)
    · exact h
  | cons c t ih =>
    intro a h
    rw [List.foldl_cons]
    apply ih
    rcases h with h | h
    · rcases List.mem_cons.mp h with rfl | h'
      · exact Or.inr (Nat.le_max_right b a)
      · exact Or.inl h'
    · exact Or.inr (Nat.le_trans h (Nat.le_max_left b c))

theorem filter_eq_singleton_of_nodup {l : List Nat} (hnd : l.Nodup) {a : Nat}
    (ha : a ∈ l) : l.filter (fun x => x = a) = [a] := by
  induction l with
  | nil => exact absurd ha (List.not_mem_nil a)
  | cons b t ih =>
    have hndt := (List.nodup_cons.mp hnd).2
    have hbt := (List.nodup_cons.mp hnd).1
    rcases List.mem_cons.mp ha with rfl | ha'
    · rw [List.filter_cons, if_pos (by simp)]
      rw [List.filter_eq_nil_iff.mpr]
      intro x hx
      simp only [decide_eq_true_eq]
      rintro rfl
      exact hbt hx
    · rw [List.filter_cons, if_neg]
      · exact ih hndt ha'
      · simp only [decide_eq_true_eq]
        rintro rfl
        exact hbt ha'

/-- The fold underlying `rebalance_clusters` contributes to a low cluster id
`cid` (below the running fresh id) exactly the members of the `cid`-groups
it processes, provided every such group is within the size bound. -/
theorem rebalanceFold_at_cid (eig : Sets K E → List K × List K)
    (sets : Sets K E) (M : Nat) (cid : Nat) :
    ∀ (gs : List (Nat × List K)) (acc : List (K × Nat)) (nid : Nat),
      cid < nid →
      (∀ q ∈ gs, q.1 = cid → q.2.length ≤ M) →
      ((gs.foldl (rebalanceStep eig sets M) (acc, nid)).1).filter
          (fun p => p.2 = cid) =
        acc.filter (fun p => p.2 = cid) ++
          (gs.filter (fun q => q.1 = cid)).flatMap
            (fun q => q.2.map (fun k => (k, cid))) := by
  intro gs
  induction gs with
  | nil =>
    intro acc nid hlt hsmall
    simp
  | cons g t ih =>
    intro acc nid hlt hsmall
    rw [List.foldl_cons]
    by_cases hgc : g.1 = cid
    · -- the cid-group itself: it is within the bound, hence copied whole
      have hsm : g.2.length ≤ M := hsmall g (List.mem_cons_self _ _) hgc
      have hstep : rebalanceStep eig sets M (acc, nid) g =
          (acc ++ g.2.map (fun k => (k, g.1)), nid) := by
        unfold rebalanceStep
        rw [if_pos hsm]
      rw [hstep, ih _ nid hlt (fun q hq => hsmall q (List.mem_cons_of_mem _ hq))]
      rw [List.filter_cons, if_pos (by simpa using hgc)]
      simp only [List.flatMap_cons]
      rw [List.filter_append]
      have hkeep : (g.2.map (fun k => (k, g.1))).filter (fun p => p.2 = cid) =
          g.2.map (fun k => (k, cid)) := by
        rw [hgc]
        apply List.filter_eq_self.mpr
        intro p hp
        obtain ⟨k, -, rfl⟩ := List.mem_map.mp hp
        simp
      rw [hkeep, List.append_assoc]
    · -- a different cluster id: no contribution at cid, whether copied or split
      have hnid' : ∀ nid', nid ≤ nid' → cid < nid' := fun nid' h => Nat.lt_of_lt_of_le hlt h
      rcases hM : decide (g.2.length ≤ M) with _ | _
      · -- oversized: split; part1 keeps g.1 ≠ cid, part2 gets nid > cid
        have hM' : ¬ g.2.length ≤ M := of_decide_eq_false hM
        have hstep : rebalanceStep eig sets M (acc, nid) g =
            (acc ++ (spectralBisect eig (g.2.map (fun k => (k, lookupS sets k)))).1.map
                (fun k => (k, g.1))
              ++ (spectralBisect eig (g.2.map (fun k => (k, lookupS sets k)))).2.map
                (fun k => (k, nid)),
             nid + 1) := by
          unfold rebalanceStep
          rw [if_neg hM']
        rw [hstep, ih _ (nid + 1) (by omega)
          (fun q hq => hsmall q (List.mem_cons_of_mem _ hq))]
        rw [List.filter_cons, if_neg (by simpa using hgc)]
        congr 1
        rw [List.filter_append, List.filter_append]
        have h1 : ((spectralBisect eig (g.2.map (fun k => (k, lookupS sets k)))).1.map
            (fun k => (k, g.1))).filter (fun p => p.2 = cid) = [] := by
          rw [List.filter_eq_nil_iff]
          intro p hp
          obtain ⟨k, -, rfl⟩ := List.mem_map.mp hp
          simpa using hgc
        have h2 : ((spectralBisect eig (g.2.map (fun k => (k, lookupS sets k)))).2.map
            (fun k => (k, nid))).filter (fun p => p.2 = cid) = [] := by
          rw [List.filter_eq_nil_iff]
          intro p hp
          obtain ⟨k, -, rfl⟩ := List.mem_map.mp hp
          simp only [decide_eq_true_eq]
          omega
        rw [h1, h2, List.append_nil, List.append_nil]
      · -- within the bound: copied with id g.1 ≠ cid
        have hM' : g.2.length ≤ M := of_decide_eq_true hM
        have hstep : rebalanceStep eig sets M (acc, nid) g =
            (acc ++ g.2.map (fun k => (k, g.1)), nid) := by
          unfold rebalanceStep
          rw [if_pos hM']
        rw [hstep, ih _ nid hlt (fun q hq => hsmall q (List.mem_cons_of_mem _ hq))]
        rw [List.filter_cons, if_neg (by simpa using hgc)]
        congr 1
        rw [List.filter_append]
        have h1 : (g.2.map (fun k => (k, g.1))).filter (fun p => p.2 = cid) = [] := by
          rw [List.filter_eq_nil_iff]
          intro p hp
          obtain ⟨k, -, rfl⟩ := List.mem_map.mp hp
          simpa using hgc
        rw [h1, List.append_nil]

/-- The claim's property, as stated, at a given configuration. -/
def C6ClaimProp (eig : Sets K E → List K × List K) (sets : Sets K E)
    (clustering : List (K × Nat)) (M m : Nat) : Prop :=
  ∀ cid,
    (clusterMembers (rebalance_clusters eig sets clustering M m) cid).length ≤ M

/-- **C6 counterexample** — `rebalance_clusters` with `max_size = 0` on the
single-key assignment `{'a': 0}`: the oversized cluster is "split" by
`SpectralBisection.bisect`, whose `n ≤ 1` branch returns
`([set_keys[0]], [])`, so cluster 0 keeps its one member and still exceeds
`max_size`.  A single bisection pass does not enforce the bound. -/
theorem C6_counterexample :
    ¬ C6ClaimProp (fun _ => ([], [])) ([('a', [1])] : Sets Char Nat)
      [('a', 0)] 0 3 := by
  intro h
  exact absurd (h 0) (by decide)

/-- **C6 amended** — after `rebalance_clusters` with `max_size = M`, every
original cluster id whose member count is within the bound keeps exactly its
member list (in particular it still satisfies the bound); oversized clusters
are split only once, so the bound is not guaranteed for their parts. -/
theorem C6_rebalance_keeps_small (eig : Sets K E → List K × List K)
    (sets : Sets K E) (clustering : List (K × Nat)) (M m : Nat)
    (cid : Nat) (hcid : cid ∈ clustering.map Prod.snd)
    (hsmall : (clusterMembers clustering cid).length ≤ M) :
    clusterMembers (rebalance_clusters eig sets clustering M m) cid =
      clusterMembers clustering cid := by
  have hlt : cid < (clustering.map Prod.snd).foldl max 0 + 1 := by
    have := le_foldl_max (clustering.map Prod.snd) 0 cid (Or.inl hcid)
    omega
  have hmemids : cid ∈ firstOccur (clustering.map Prod.snd) :=
    mem_firstOccur.mpr hcid
  have hfold := rebalanceFold_at_cid eig sets M cid
    ((firstOccur (clustering.map Prod.snd)).map
      (fun c => (c, (clustering.filter (fun p => p.2 = c)).map Prod.fst)))
    [] ((clustering.map Prod.snd).foldl max 0 + 1) hlt
    (by
      intro q hq hqc
      obtain ⟨c, -, rfl⟩ := List.mem_map.mp hq
      dsimp only at hqc ⊢
      rw [hqc]
      exact hsmall)
  unfold rebalance_clusters clusterMembers
  rw [hfold]
  have hids : ((firstOccur (clustering.map Prod.snd)).map
      (fun c => (c, (clustering.filter (fun p => p.2 = c)).map Prod.fst))).filter
        (fun q => q.1 = cid) =
      [(cid, (clustering.filter (fun p => p.2 = cid)).map Prod.fst)] := by
    rw [List.filter_map]
    have : (firstOccur (clustering.map Prod.snd)).filter
        ((fun q => decide (q.1 = cid)) ∘
          (fun c => (c, (clustering.filter (fun p => p.2 = c)).map Prod.fst))) =
        (firstOccur (clustering.map Prod.snd)).filter (fun x => x = cid) := by
      apply List.filter_congr
      intro c _
      simp
    rw [this, filter_eq_singleton_of_nodup (firstOccur_nodup _) hmemids]
    rfl
  rw [hids]
  simp only [List.nil_append, List.flatMap_cons, List.flatMap_nil, List.append_nil]
  simp [List.map_map, Function.comp_def]

/-! ### Claim C7 — the overlap matrix -/

theorem matUpd_eq (m : Nat → Nat → ℚ) (i j : Nat) (x : ℚ) (a b : Nat) :
    matUpd m i j x a b = if a = i ∧ b = j then x else m a b := rfl

/-- Effect of one inner iteration on an arbitrary cell, assuming the cells
this iteration may write still hold `0`. -/
theorem overlapInner_cell (vals : List (List E)) (i j : Nat)
    (m : Nat → Nat → ℚ)
    (hz1 : m i j = 0) (hz2 : m j i = 0) :
    ∀ a b, overlapInner vals i m j a b =
      if a = i ∧ b = j then cellW vals i j
      else if b = i ∧ a = j then cellW vals i j
      else m a b := by
  intro a b
  unfold overlapInner cellW
  by_cases hij : i = j
  · subst hij
    rw [if_pos rfl]
    rw [matUpd_eq]
    by_cases ha : a = i
    · by_cases hb : b = i
      · simp [ha, hb]
      · simp [ha, hb]
    · by_cases hb : b = i <;> by_cases ha' : a = i <;> simp [ha, hb, ha']
  · rw [if_neg hij]
    by_cases hu : 0 < unionCard (vals.getD i []) (vals.getD j [])
    · rw [if_pos hu]
      simp only [matUpd_eq]
      by_cases h1 : a = j ∧ b = i
      · rw [if_pos h1]
        have hai : ¬ (a = i ∧ b = j) := by
          rintro ⟨rfl, rfl⟩
          exact hij h1.1
        rw [if_neg hai, if_pos ⟨h1.2, h1.1⟩, if_neg hij, if_pos hu]
      · rw [if_neg h1]
        by_cases h2 : a = i ∧ b = j
        · rw [if_pos h2, if_pos h2, if_neg hij, if_pos hu]
        · rw [if_neg h2, if_neg h2, if_neg (fun hc => h1 ⟨hc.2, hc.1⟩)]
    · rw [if_neg hu]
      by_cases h2 : a = i ∧ b = j
      · rw [if_pos h2, if_neg hij, if_neg hu]
        rw [h2.1, h2.2]
        exact hz1
      · rw [if_neg h2]
        by_cases h1 : b = i ∧ a = j
        · rw [if_pos h1, if_neg hij, if_neg hu]
          rw [h1.1, h1.2]
          exact hz2
        · rw [if_neg h1]

/-- The inner `for j in range(i, n)` fold, over any duplicate-free index
list whose target cells are still `0`: afterwards row and column `i` hold
the written values on those indices and everything else is untouched. -/
theorem overlapInner_fold (vals : List (List E)) (i : Nat) :
    ∀ (js : List Nat) (m : Nat → Nat → ℚ), js.Nodup →
      (∀ a b, ((a = i ∧ b ∈ js) ∨ (b = i ∧ a ∈ js)) → m a b = 0) →
      ∀ a b, (js.foldl (overlapInner vals i) m) a b =
        if a = i ∧ b ∈ js then cellW vals i b
        else if b = i ∧ a ∈ js then cellW vals i a
        else m a b := by
  intro js
  induction js with
  | nil =>
    intro m hnd hz a b
    simp
  | cons j t ih =>
    intro m hnd hz a b
    have hndt := (List.nodup_cons.mp hnd).2
    have hjt : j ∉ t := (List.nodup_cons.mp hnd).1
    rw [List.foldl_cons]
    have hm1 := overlapInner_cell vals i j m
      (hz i j (Or.inl ⟨rfl, List.mem_cons_self _ _⟩))
      (hz j i (Or.inr ⟨rfl, List.mem_cons_self _ _⟩))
    have hz1 : ∀ a b, ((a = i ∧ b ∈ t) ∨ (b = i ∧ a ∈ t)) →
        overlapInner vals i m j a b = 0 := by
      intro a b hab
      rw [hm1 a b]
      have hno1 : ¬ (a = i ∧ b = j) := by
        rintro ⟨rfl, rfl⟩
        rcases hab with ⟨-, hbt⟩ | ⟨hbi, hat⟩
        · exact hjt hbt
        · exact (hbi ▸ hjt) hat
      have hno2 : ¬ (b = i ∧ a = j) := by
        rintro ⟨rfl, rfl⟩
        rcases hab with ⟨haj, hbt⟩ | ⟨-, hat⟩
        · exact (haj ▸ hjt) hbt
        · exact hjt hat
      rw [if_neg hno1, if_neg hno2]
      apply hz
      rcases hab with ⟨ha, hbt⟩ | ⟨hb, hat⟩
      · exact Or.inl ⟨ha, List.mem_cons_of_mem _ hbt⟩
      · exact Or.inr ⟨hb, List.mem_cons_of_mem _ hat⟩
    rw [ih (overlapInner vals i m j) hndt hz1 a b, hm1 a b]
    by_cases hA : a = i ∧ b ∈ t
    · rw [if_pos hA, if_pos ⟨hA.1, List.mem_cons_of_mem _ hA.2⟩]
    · rw [if_neg hA]
      by_cases hB : b = i ∧ a ∈ t
      · rw [if_pos hB]
        have hai : ¬ (a = i ∧ b ∈ j :: t) := by
          rintro ⟨rfl, -⟩
          apply hA
          refine ⟨rfl, ?_⟩
          rw [hB.1]
          exact hB.2
        rw [if_neg hai, if_pos ⟨hB.1, List.mem_cons_of_mem _ hB.2⟩]
      · rw [if_neg hB]
        by_cases hC1 : a = i ∧ b = j
        · rw [if_pos hC1, if_pos ⟨hC1.1, by rw [hC1.2]; exact List.mem_cons_self _ _⟩]
          rw [hC1.2]
        · rw [if_neg hC1]
          by_cases hC2 : b = i ∧ a = j
          · rw [if_pos hC2]
            have hai : ¬ (a = i ∧ b ∈ j :: t) := by
              rintro ⟨ha, -⟩
              apply hC1
              refine ⟨ha, ?_⟩
              rw [hC2.1, ← hC2.2, ha]
            rw [if_neg hai,
              if_pos ⟨hC2.1, by rw [hC2.2]; exact List.mem_cons_self _ _⟩]
            rw [hC2.2]
          · rw [if_neg hC2]
            have hai : ¬ (a = i ∧ b ∈ j :: t) := by
              rintro ⟨ha, hbjt⟩
              rcases List.mem_cons.mp hbjt with rfl | hbt
              · exact hC1 ⟨ha, rfl⟩
              · exact hA ⟨ha, hbt⟩
            have hbi : ¬ (b = i ∧ a ∈ j :: t) := by
              rintro ⟨hb, hajt⟩
              rcases List.mem_cons.mp hajt with rfl | hat
              · exact hC2 ⟨hb, rfl⟩
              · exact hB ⟨hb, hat⟩
            rw [if_neg hai, if_neg hbi]

/-- The outer `for i in range(n)` fold: processing indices `k, …, n-1` on a
matrix correct for the first `k` rows/columns produces the full matrix,
whose `(a, b)` cell is the write `cellW` of iteration `min a b`. -/
theorem overlapOuter_fold (vals : List (List E)) (n : Nat) :
    ∀ (d k : Nat), k + d = n →
      ∀ (m : Nat → Nat → ℚ),
        (∀ a b, m a b =
          if a < n ∧ b < n ∧ min a b < k then cellW vals (min a b) (max a b) else 0) →
        ∀ a b,
          ((List.range' k d).foldl
            (fun m i => (List.range' i (n - i)).foldl (overlapInner vals i) m) m) a b =
          if a < n ∧ b < n then cellW vals (min a b) (max a b) else 0 := by
  intro d
  induction d with
  | zero =>
    intro k hk m hm a b
    simp only [List.range', List.foldl_nil]
    rw [hm a b]
    by_cases hab : a < n ∧ b < n
    · rw [if_pos ⟨hab.1, hab.2, by omega⟩, if_pos hab]
    · rw [if_neg (by tauto), if_neg hab]
  | succ d ih =>
    intro k hk m hm a b
    have hrange : List.range' k (d + 1) = k :: List.range' (k + 1) d := by
      rw [List.range'_succ]
    rw [hrange, List.foldl_cons]
    have hkn : k < n := by omega
    -- the inner pass for row k
    have hinner := overlapInner_fold vals k (List.range' k (n - k))
      m (List.nodup_range' _ _)
      (by
        intro a b hab
        rw [hm a b]
        rcases hab with ⟨ha, hb⟩ | ⟨hb, ha⟩
        · obtain ⟨hb1, hb2⟩ := List.mem_range'_1.mp hb
          rw [if_neg]
          rintro ⟨-, -, hmin⟩
          rw [ha] at hmin
          omega
        · obtain ⟨ha1, ha2⟩ := List.mem_range'_1.mp ha
          rw [if_neg]
          rintro ⟨-, -, hmin⟩
          rw [hb] at hmin
          omega)
    -- after row k the invariant holds at k+1
    apply ih (k + 1) (by omega)
    intro a' b'
    rw [hinner a' b']
    by_cases hA : a' = k ∧ b' ∈ List.range' k (n - k)
    · obtain ⟨hb1, hb2⟩ := List.mem_range'_1.mp hA.2
      rw [if_pos hA, if_pos ⟨by omega, by omega, by rw [hA.1]; omega⟩]
      rw [hA.1]
      congr 1
      · omega
      · omega
    · rw [if_neg hA]
      by_cases hB : b' = k ∧ a' ∈ List.range' k (n - k)
      · obtain ⟨ha1, ha2⟩ := List.mem_range'_1.mp hB.2
        rw [if_pos hB, if_pos ⟨by omega, by omega, by rw [hB.1]; omega⟩]
        rw [hB.1]
        congr 1
        · omega
        · omega
      · rw [if_neg hB, hm a' b']
        by_cases hab : a' < n ∧ b' < n
        · by_cases hmin : min a' b' < k
          · rw [if_pos ⟨hab.1, hab.2, hmin⟩, if_pos ⟨hab.1, hab.2, by omega⟩]
          · rw [if_neg (by tauto), if_neg]
            rintro ⟨-, -, hmin'⟩
            -- min a' b' = k would force row k to have touched this cell
            rcases Nat.le_total a' b' with hle | hle
            · have ha'k : a' = k := by omega
              apply hA
              refine ⟨ha'k, List.mem_range'_1.mpr ⟨by omega, by omega⟩⟩
            · have hb'k : b' = k := by omega
              apply hB
              refine ⟨hb'k, List.mem_range'_1.mpr ⟨by omega, by omega⟩⟩
        · rw [if_neg (by tauto), if_neg (by tauto)]

theorem interCard_comm (a b : List E) : interCard a b = interCard b a := by
  rw [interCard, interCard, Finset.inter_comm]

theorem unionCard_comm (a b : List E) : unionCard a b = unionCard b a := by
  rw [unionCard, unionCard, Finset.union_comm]

/-- Closed form of the overlap matrix: inside the `n × n` range the cell
`(i, j)` holds the value written at iteration `(min i j, max i j)`, outside
it stays `0`. -/
theorem computeOverlapMatrix_eq (sets : Sets K E) (i j : Nat) :
    computeOverlapMatrix sets i j =
      if i < sets.length ∧ j < sets.length then
        cellW (sets.map Prod.snd) (min i j) (max i j)
      else 0 := by
  have h := overlapOuter_fold (sets.map Prod.snd) sets.length sets.length 0
    (by omega) (fun _ _ => 0) (fun a b => by simp) i j
  rw [← h]
  unfold computeOverlapMatrix
  rw [List.range_eq_range']

/-- `cellW` at `(min i j, max i j)` in terms of `(i, j)` directly. -/
theorem cellW_minmax (vals : List (List E)) (i j : Nat) :
    cellW vals (min i j) (max i j) =
      if i = j then 1
      else (interCard (vals.getD i []) (vals.getD j []) : ℚ) /
        (unionCard (vals.getD i []) (vals.getD j []) : ℚ) := by
  by_cases hij : i = j
  · subst hij
    rw [if_pos rfl]
    unfold cellW
    rw [Nat.min_self, Nat.max_self, if_pos rfl]
  · rw [if_neg hij]
    rcases Nat.le_total i j with hle | hle
    · rw [Nat.min_eq_left hle, Nat.max_eq_right hle]
      unfold cellW
      rw [if_neg hij]
      by_cases hu : 0 < unionCard (vals.getD i []) (vals.getD j [])
      · rw [if_pos hu]
      · rw [if_neg hu]
        have hu0 : unionCard (vals.getD i []) (vals.getD j []) = 0 := by omega
        rw [hu0]
        norm_num
    · rw [Nat.min_eq_right hle, Nat.max_eq_left hle]
      unfold cellW
      rw [if_neg (fun h => hij h.symm)]
      rw [interCard_comm, unionCard_comm]
      by_cases hu : 0 < unionCard (vals.getD i []) (vals.getD j [])
      · rw [if_pos hu]
      · rw [if_neg hu]
        have hu0 : unionCard (vals.getD i []) (vals.getD j []) = 0 := by omega
        rw [hu0]
        norm_num

/-- **C7** — the overlap-matrix invariant (over exact rationals in place of
IEEE floats; symmetry and the unit diagonal are exact in floats too, since
the same stored value is written to both mirror cells):  the matrix built by
`SetOverlapGraph._compute_overlap_matrix` is symmetric, has `1` on the
diagonal, and off the diagonal holds the Jaccard similarity
`|A∩B| / |A∪B|` of the two (deduplicated) sets — in particular `0` whenever
the two sets are disjoint or their union is empty. -/
theorem C7_overlap_matrix_invariant (sets : Sets K E) (i j : Nat)
    (hi : i < sets.length) (hj : j < sets.length) :
    computeOverlapMatrix sets i j = computeOverlapMatrix sets j i ∧
    (i = j → computeOverlapMatrix sets i j = 1) ∧
    (i ≠ j → computeOverlapMatrix sets i j = jaccardAt sets i j ∧
      (interCard ((sets.map Prod.snd).getD i []) ((sets.map Prod.snd).getD j []) = 0 →
        computeOverlapMatrix sets i j = 0)) := by
  refine ⟨?_, ?_, ?_⟩
  · rw [computeOverlapMatrix_eq, computeOverlapMatrix_eq,
      if_pos ⟨hi, hj⟩, if_pos ⟨hj, hi⟩, Nat.min_comm, Nat.max_comm]
  · intro hij
    rw [computeOverlapMatrix_eq, if_pos ⟨hi, hj⟩, cellW_minmax, if_pos hij]
  · intro hij
    constructor
    · rw [computeOverlapMatrix_eq, if_pos ⟨hi, hj⟩, cellW_minmax, if_neg hij]
      rfl
    · intro hinter
      rw [computeOverlapMatrix_eq, if_pos ⟨hi, hj⟩, cellW_minmax, if_neg hij,
        hinter]
      norm_num

/-- Witness for C7 at a concrete input. -/
theorem C7_overlap_matrix_invariant_witness :
    (0 < ([('a', [1, 2]), ('b', [2, 3]), ('c', [9])] : Sets Char Nat).length) ∧
    (1 < ([('a', [1, 2]), ('b', [2, 3]), ('c', [9])] : Sets Char Nat).length) ∧
    (computeOverlapMatrix ([('a', [1, 2]), ('b', [2, 3]), ('c', [9])] : Sets Char Nat) 0 1 =
      computeOverlapMatrix ([('a', [1, 2]), ('b', [2, 3]), ('c', [9])] : Sets Char Nat) 1 0 ∧
    ((0 : Nat) = 1 → computeOverlapMatrix ([('a', [1, 2]), ('b', [2, 3]), ('c', [9])] : Sets Char Nat) 0 1 = 1) ∧
    ((0 : Nat) ≠ 1 → computeOverlapMatrix ([('a', [1, 2]), ('b', [2, 3]), ('c', [9])] : Sets Char Nat) 0 1 =
        jaccardAt ([('a', [1, 2]), ('b', [2, 3]), ('c', [9])] : Sets Char Nat) 0 1 ∧
      (interCard ((([('a', [1, 2]), ('b', [2, 3]), ('c', [9])] : Sets Char Nat).map Prod.snd).getD 0 [])
          ((([('a', [1, 2]), ('b', [2, 3]), ('c', [9])] : Sets Char Nat).map Prod.snd).getD 1 []) = 0 →
        computeOverlapMatrix ([('a', [1, 2]), ('b', [2, 3]), ('c', [9])] : Sets Char Nat) 0 1 = 0))) :=
  ⟨by decide, by decide,
    C7_overlap_matrix_invariant ([('a', [1, 2]), ('b', [2, 3]), ('c', [9])] : Sets Char Nat)
      0 1 (by decide) (by decide)⟩

/-- Witness for the amended C6 at a concrete configuration. -/
theorem C6_rebalance_keeps_small_witness :
    (0 ∈ ([('a', 0), ('b', 0), ('c', 1)] : List (Char × Nat)).map Prod.snd) ∧
    (clusterMembers ([('a', 0), ('b', 0), ('c', 1)] : List (Char × Nat)) 0).length ≤ 5 ∧
    clusterMembers (rebalance_clusters (fun _ => ([], []))
      ([('a', [1]), ('b', [2]), ('c', [3])] : Sets Char Nat)
      [('a', 0), ('b', 0), ('c', 1)] 5 3) 0 =
      clusterMembers ([('a', 0), ('b', 0), ('c', 1)] : List (Char × Nat)) 0 :=
  ⟨by decide, by decide,
    C6_rebalance_keeps_small (fun _ => ([], []))
      ([('a', [1]), ('b', [2]), ('c', [3])] : Sets Char Nat)
      [('a', 0), ('b', 0), ('c', 1)] 5 3 0 (by decide) (by decide)⟩

/-! ### Frame lemmas for the heap engine (claim C9) -/

/-- Fold invariance: a property preserved by every step of a fold holds of
the fold. -/
theorem foldl_inv {α β : Type} (P : α → Prop) (f : α → β → α) :
    ∀ (l : List β) (a : α), P a → (∀ x b, P x → b ∈ l → P (f x b)) →
      P (l.foldl f a)
  | [], a, ha, _ => ha
  | b :: t, a, ha, h => by
    rw [List.foldl_cons]
    exact foldl_inv P f t (f a b) (h a b ha (by simp))
      (fun x c hx hc => h x c hx (by simp [hc]))

/-- Store extension is transitive. -/
theorem exists_append_trans {E : Type} {a b c : Store E}
    (h1 : ∃ τ, b = a ++ τ) (h2 : ∃ τ, c = b ++ τ) : ∃ τ, c = a ++ τ := by
  obtain ⟨τ1, e1⟩ := h1
  obtain ⟨τ2, e2⟩ := h2
  exact ⟨τ1 ++ τ2, by rw [e2, e1, List.append_assoc]⟩

/-- Allocation extends the store. -/
theorem allocH_ext (σ : Store E) (v : List E) :
    ∃ τ, (allocH σ v).1 = σ ++ τ := ⟨[v], rfl⟩

/-- The allocated reference. -/
theorem allocH_ref (σ : Store E) (v : List E) : (allocH σ v).2 = σ.length :=
  rfl

/-- A store extension is at least as long as its base, so any reference at
the current store length — a fresh allocation — is at or above the base. -/
theorem base_le_len {σ0 σ : Store E} (h : ∃ τ, σ = σ0 ++ τ) :
    σ0.length ≤ σ.length := by
  obtain ⟨τ, e⟩ := h
  rw [e]
  simp

/-- The reference a dict lookup returns is one of the dict's values. -/
theorem lookupR_mem : ∀ (hs : HSets K) (k : K), k ∈ hs.map Prod.fst →
    lookupR hs k ∈ hs.map Prod.snd
  | [], k, h => by simp at h
  | (k', r) :: t, k, h => by
    rw [lookupR]
    by_cases hk : k = k'
    · rw [if_pos hk]; simp
    · rw [if_neg hk]
      have hmem : k ∈ t.map Prod.fst := by
        simp only [List.map_cons, List.mem_cons] at h
        tauto
      have := lookupR_mem t k hmem
      simp [this]

/-- Rebinding a key leaves the key list unchanged. -/
theorem setRefH_keys : ∀ (hs : HSets K) (k : K) (r : Nat),
    (setRefH hs k r).map Prod.fst = hs.map Prod.fst
  | [], _, _ => rfl
  | (k', r') :: t, k, r => by
    rw [setRefH]
    by_cases hk : k = k'
    · rw [if_pos hk]
      rfl
    · rw [if_neg hk]
      simp [setRefH_keys t k r]

/-- An entry of a rebound dict carries either the new reference or an old
entry. -/
theorem mem_setRefH : ∀ {hs : HSets K} {k : K} {r : Nat} {p : K × Nat},
    p ∈ setRefH hs k r → p.2 = r ∨ p ∈ hs := by
  intro hs
  induction hs with
  | nil => intro k r p h; simp [setRefH] at h
  | cons q t ih =>
    intro k r p h
    rw [setRefH] at h
    by_cases hk : k = q.1
    · rw [if_pos hk] at h
      rcases List.mem_cons.mp h with h' | h'
      · left; rw [h']
      · right; exact List.mem_cons_of_mem q h'
    · rw [if_neg hk] at h
      rcases List.mem_cons.mp h with h' | h'
      · right; rw [h']; exact List.mem_cons_self q t
      · rcases ih h' with h'' | h''
        · left; exact h''
        · right; exact List.mem_cons_of_mem q h''

/-- The copy fold (`deepcopy` / the deduplicating validator) relative to a
base store: the store is extended, the produced keys follow the input keys,
and every produced reference is fresh relative to the base. -/
theorem copyFold_frame (g : List E → List E) (σ0 : Store E) :
    ∀ (hs : HSets K) (σ : Store E) (acc : HSets K),
      (∃ τ, σ = σ0 ++ τ) → (∀ q ∈ acc, σ0.length ≤ q.2) →
      (∃ τ, (hs.foldl (copyStepH g) (σ, acc)).1 = σ0 ++ τ) ∧
      (hs.foldl (copyStepH g) (σ, acc)).2.map Prod.fst
        = acc.map Prod.fst ++ hs.map Prod.fst ∧
      ∀ q ∈ (hs.foldl (copyStepH g) (σ, acc)).2, σ0.length ≤ q.2 := by
  intro hs
  induction hs with
  | nil =>
    intro σ acc hσ hacc
    exact ⟨hσ, by simp, hacc⟩
  | cons p t ih =>
    intro σ acc hσ hacc
    rw [List.foldl_cons]
    have hstep : copyStepH g (σ, acc) p
        = (σ ++ [g (readH σ p.2)], acc ++ [(p.1, σ.length)]) := rfl
    rw [hstep]
    obtain ⟨τ, hτ⟩ := hσ
    have h1 : ∃ τ2, σ ++ [g (readH σ p.2)] = σ0 ++ τ2 :=
      ⟨τ ++ [g (readH σ p.2)], by simp [hτ]⟩
    have h2 : ∀ q ∈ acc ++ [(p.1, σ.length)], σ0.length ≤ q.2 := by
      intro q hq
      rcases List.mem_append.mp hq with h | h
      · exact hacc q h
      · simp only [List.mem_singleton] at h
        subst h
        simp [hτ]
    obtain ⟨e1, e2, e3⟩ := ih (σ ++ [g (readH σ p.2)]) (acc ++ [(p.1, σ.length)]) h1 h2
    refine ⟨e1, ?_, e3⟩
    rw [e2]
    simp

/-- `copyAllH` extends the store and produces only fresh references. -/
theorem copyAllH_frame (g : List E → List E) (σ : Store E) (hs : HSets K) :
    (∃ τ, (copyAllH g σ hs).1 = σ ++ τ) ∧
    (copyAllH g σ hs).2.map Prod.fst = hs.map Prod.fst ∧
    ∀ q ∈ (copyAllH g σ hs).2, σ.length ≤ q.2 := by
  have := copyFold_frame g σ hs σ [] ⟨[], by simp⟩ (by intro q hq; simp at hq)
  simpa [copyAllH] using this

/-- `validateDictH` extends the store, keeps the key list and produces only
references at or above those of its input dict's base. -/
theorem validateDictH_frame (σ0 : Store E) (σ : Store E) (hs : HSets K)
    (hσ : ∃ τ, σ = σ0 ++ τ) (hhs : ∀ q ∈ hs, σ0.length ≤ q.2) :
    (∃ τ, (validateDictH σ hs).1 = σ0 ++ τ) ∧
    (validateDictH σ hs).2.map Prod.fst = hs.map Prod.fst ∧
    ∀ q ∈ (validateDictH σ hs).2, σ0.length ≤ q.2 := by
  rw [validateDictH]
  by_cases h : hs.all (fun p => (readH σ p.2).Nodup)
  · rw [if_pos h]
    exact ⟨hσ, rfl, hhs⟩
  · rw [if_neg h]
    obtain ⟨e1, e2, e3⟩ := copyAllH_frame uniq σ hs
    obtain ⟨τ, hτ⟩ := hσ
    obtain ⟨τ2, hτ2⟩ := e1
    refine ⟨⟨τ ++ τ2, by rw [hτ2, hτ]; simp⟩, e2, ?_⟩
    intro q hq
    have := e3 q hq
    rw [hτ] at this
    simp only [List.length_append] at this
    omega

/-- `removeFromH` extends the store, keeps the key list and keeps every
dict reference at or above the base. -/
theorem removeFromH_frame (σ0 : Store E) (ks : List K) (elems : List E) :
    ∀ (a : Store E × HSets K),
      (∃ τ, a.1 = σ0 ++ τ) → (∀ q ∈ a.2, σ0.length ≤ q.2) →
      (∃ τ, (removeFromH a ks elems).1 = σ0 ++ τ) ∧
      (removeFromH a ks elems).2.map Prod.fst = a.2.map Prod.fst ∧
      ∀ q ∈ (removeFromH a ks elems).2, σ0.length ≤ q.2 := by
  induction ks with
  | nil =>
    intro a h1 h2
    exact ⟨h1, rfl, h2⟩
  | cons k t ih =>
    intro a h1 h2
    obtain ⟨τ, hτ⟩ := h1
    have h1' : ∃ τ2,
        a.1 ++ [pydiff (readH a.1 (lookupR a.2 k)) elems] = σ0 ++ τ2 :=
      ⟨τ ++ [pydiff (readH a.1 (lookupR a.2 k)) elems], by simp [hτ]⟩
    have h2' : ∀ q ∈ setRefH a.2 k a.1.length, σ0.length ≤ q.2 := by
      intro q hq
      rcases mem_setRefH hq with h' | h'
      · rw [h', hτ]; simp
      · exact h2 q h'
    obtain ⟨e1, e2, e3⟩ := ih
      (a.1 ++ [pydiff (readH a.1 (lookupR a.2 k)) elems],
        setRefH a.2 k a.1.length) h1' h2'
    refine ⟨e1, ?_, e3⟩
    show (removeFromH (a.1 ++ [pydiff (readH a.1 (lookupR a.2 k)) elems],
        setRefH a.2 k a.1.length) t elems).2.map Prod.fst = a.2.map Prod.fst
    rw [e2]
    exact setRefH_keys a.2 k a.1.length

/-- The difference half of the inner-loop body preserves the frame. -/
theorem innerDiffH_frame (σ0 : Store E) (this_ref : Nat)
    (st : Store E × HSets K × List (List K × Nat)) (item : List K × Nat)
    (h1 : ∃ τ, st.1 = σ0 ++ τ) (h2 : ∀ q ∈ st.2.1, σ0.length ≤ q.2)
    (h3 : ∀ q ∈ st.2.2, σ0.length ≤ q.2) :
    (∃ τ, (innerDiffH this_ref st item).1 = σ0 ++ τ) ∧
    (innerDiffH this_ref st item).2.1.map Prod.fst = st.2.1.map Prod.fst ∧
    (∀ q ∈ (innerDiffH this_ref st item).2.1, σ0.length ≤ q.2) ∧
    ∀ q ∈ (innerDiffH this_ref st item).2.2, σ0.length ≤ q.2 := by
  simp only [innerDiffH]
  by_cases hc : pydiff (readH st.1 item.2) (readH st.1 this_ref) ≠ []
  · rw [if_pos hc]
    have h1' : ∃ τ2,
        (allocH st.1 (pydiff (readH st.1 item.2) (readH st.1 this_ref))).1
          = σ0 ++ τ2 :=
      exists_append_trans h1 (allocH_ext _ _)
    obtain ⟨e1, e2, e3⟩ := removeFromH_frame σ0 (sortK item.1)
      (pydiff (readH st.1 item.2) (readH st.1 this_ref))
      ((allocH st.1 (pydiff (readH st.1 item.2) (readH st.1 this_ref))).1,
        st.2.1) h1' h2
    refine ⟨e1, e2, e3, ?_⟩
    intro q hq
    rcases List.mem_append.mp hq with h | h
    · exact h3 q h
    · simp only [List.mem_singleton] at h
      rw [h]
      exact base_le_len h1
  · rw [if_neg hc]
    exact ⟨exists_append_trans h1 (allocH_ext _ _), rfl, h2, h3⟩

/-- The intersection half of the inner-loop body preserves the frame. -/
theorem innerInterH_frame (σ0 : Store E) (set_key : K)
    (st : Store E × HSets K × List (List K × Nat)) (item : List K × Nat)
    (h1 : ∃ τ, st.1 = σ0 ++ τ) (h2 : ∀ q ∈ st.2.1, σ0.length ≤ q.2)
    (h3 : ∀ q ∈ st.2.2, σ0.length ≤ q.2) :
    (∃ τ, (innerInterH set_key st item).1 = σ0 ++ τ) ∧
    (innerInterH set_key st item).2.1.map Prod.fst = st.2.1.map Prod.fst ∧
    (∀ q ∈ (innerInterH set_key st item).2.1, σ0.length ≤ q.2) ∧
    ∀ q ∈ (innerInterH set_key st item).2.2, σ0.length ≤ q.2 := by
  simp only [innerInterH]
  by_cases hc :
      pyinter (readH st.1 item.2) (readH st.1 (lookupR st.2.1 set_key)) ≠ []
  · rw [if_pos hc]
    have h1' : ∃ τ2,
        (allocH st.1
          (pyinter (readH st.1 item.2) (readH st.1 (lookupR st.2.1 set_key)))).1
          = σ0 ++ τ2 :=
      exists_append_trans h1 (allocH_ext _ _)
    obtain ⟨e1, e2, e3⟩ := removeFromH_frame σ0 (sortK (item.1 ++ [set_key]))
      (pyinter (readH st.1 item.2) (readH st.1 (lookupR st.2.1 set_key)))
      ((allocH st.1
        (pyinter (readH st.1 item.2) (readH st.1 (lookupR st.2.1 set_key)))).1,
        st.2.1) h1' h2
    refine ⟨exists_append_trans e1 (allocH_ext _ _), ?_, ?_, ?_⟩
    · rw [setRefH_keys]
      exact e2
    · intro q hq
      rcases mem_setRefH hq with h' | h'
      · rw [h']
        exact base_le_len e1
      · exact e3 q h'
    · intro q hq
      rcases List.mem_append.mp hq with h | h
      · exact h3 q h
      · simp only [List.mem_singleton] at h
        rw [h]
        exact base_le_len h1
  · rw [if_neg hc]
    exact ⟨exists_append_trans h1 (allocH_ext _ _), rfl, h2, h3⟩

/-- The full inner-loop body preserves the frame. -/
theorem innerStepH_frame (σ0 : Store E) (set_key : K) (this_ref : Nat)
    (acc : Store E × HSets K × List K × List (List K × Nat))
    (item : List K × Nat)
    (h1 : ∃ τ, acc.1 = σ0 ++ τ) (h2 : ∀ q ∈ acc.2.1, σ0.length ≤ q.2)
    (h3 : ∀ q ∈ acc.2.2.2, σ0.length ≤ q.2) :
    (∃ τ, (innerStepH set_key this_ref acc item).1 = σ0 ++ τ) ∧
    (innerStepH set_key this_ref acc item).2.1.map Prod.fst
      = acc.2.1.map Prod.fst ∧
    (∀ q ∈ (innerStepH set_key this_ref acc item).2.1, σ0.length ≤ q.2) ∧
    ∀ q ∈ (innerStepH set_key this_ref acc item).2.2.2, σ0.length ≤ q.2 := by
  obtain ⟨d1, d2, d3, d4⟩ := innerDiffH_frame σ0 this_ref
    (acc.1, acc.2.1, acc.2.2.2) item h1 h2 h3
  obtain ⟨i1, i2, i3, i4⟩ := innerInterH_frame σ0 set_key
    (innerDiffH this_ref (acc.1, acc.2.1, acc.2.2.2) item) item d1 d3 d4
  refine ⟨i1, ?_, i3, i4⟩
  rw [innerStepH]
  show (innerInterH set_key _ item).2.1.map Prod.fst = acc.2.1.map Prod.fst
  rw [i2, d2]

/-- The tail of an outer-loop iteration preserves the frame. -/
theorem outerTailH_frame (σ0 : Store E) (set_key : K)
    (a2 : Store E × HSets K × List K × List (List K × Nat))
    (hkey : set_key ∈ a2.2.1.map Prod.fst)
    (h1 : ∃ τ, a2.1 = σ0 ++ τ) (h2 : ∀ q ∈ a2.2.1, σ0.length ≤ q.2)
    (h3 : ∀ q ∈ a2.2.2.2, σ0.length ≤ q.2) :
    (∃ τ, (outerTailH set_key a2).1 = σ0 ++ τ) ∧
    (outerTailH set_key a2).2.1.map Prod.fst = a2.2.1.map Prod.fst ∧
    (∀ q ∈ (outerTailH set_key a2).2.1, σ0.length ≤ q.2) ∧
    ∀ q ∈ (outerTailH set_key a2).2.2.2, σ0.length ≤ q.2 := by
  have hy : σ0.length ≤ lookupR a2.2.1 set_key := by
    have hm : lookupR a2.2.1 set_key ∈ a2.2.1.map Prod.snd :=
      lookupR_mem a2.2.1 set_key hkey
    simp only [List.mem_map] at hm
    obtain ⟨q, hq, hq2⟩ := hm
    rw [← hq2]
    exact h2 q hq
  simp only [outerTailH]
  by_cases hrest : readH a2.1 (lookupR a2.2.1 set_key) ≠ []
  · rw [if_pos hrest]
    refine ⟨exists_append_trans h1 (allocH_ext _ _), ?_, ?_, ?_⟩
    · show (setRefH a2.2.1 set_key (allocH a2.1 []).2).map Prod.fst
        = a2.2.1.map Prod.fst
      rw [setRefH_keys]
    · intro q hq
      rcases mem_setRefH hq with h' | h'
      · rw [h']
        exact base_le_len h1
      · exact h2 q h'
    · intro q hq
      rcases List.mem_append.mp hq with h | h
      · exact h3 q h
      · simp only [List.mem_singleton] at h
        rw [h]
        exact hy
  · rw [if_neg hrest]
    exact ⟨h1, rfl, h2, h3⟩

/-- One outer-loop iteration preserves the frame, given that the recursive
call itself extends any store it is run on and yields only fresh
references. -/
theorem outerStepH_frame
    (rec : Store E → HSets K → Store E × List (List K × Nat))
    (hrec : ∀ σ hs, (∃ τ, (rec σ hs).1 = σ ++ τ) ∧
      ∀ p ∈ (rec σ hs).2, σ.length ≤ p.2)
    (σ0 : Store E)
    (acc : Store E × HSets K × List K × List (List K × Nat)) (set_key : K)
    (hkey : set_key ∈ acc.2.1.map Prod.fst)
    (h1 : ∃ τ, acc.1 = σ0 ++ τ) (h2 : ∀ q ∈ acc.2.1, σ0.length ≤ q.2)
    (h3 : ∀ q ∈ acc.2.2.2, σ0.length ≤ q.2) :
    (∃ τ, (outerStepH rec acc set_key).1 = σ0 ++ τ) ∧
    (outerStepH rec acc set_key).2.1.map Prod.fst = acc.2.1.map Prod.fst ∧
    (∀ q ∈ (outerStepH rec acc set_key).2.1, σ0.length ≤ q.2) ∧
    ∀ q ∈ (outerStepH rec acc set_key).2.2.2, σ0.length ≤ q.2 := by
  simp only [outerStepH]
  by_cases hg : readH acc.1 (lookupR acc.2.1 set_key) = [] ∨
      acc.2.2.1.filter (fun k => k ≠ set_key) = []
  · rw [if_pos hg]
    exact ⟨h1, rfl, h2, h3⟩
  · rw [if_neg hg]
    obtain ⟨τ, hτ⟩ := h1
    obtain ⟨hrec1, -⟩ := hrec acc.1
      ((acc.2.2.1.filter (fun k => k ≠ set_key)).map
        (fun k => (k, lookupR acc.2.1 k)))
    obtain ⟨τr, hτr⟩ := hrec1
    -- invariant through the fold over the recursive yields
    have hfold := foldl_inv
      (fun st : Store E × HSets K × List K × List (List K × Nat) =>
        (∃ τ2, st.1 = σ0 ++ τ2) ∧
        st.2.1.map Prod.fst = acc.2.1.map Prod.fst ∧
        (∀ q ∈ st.2.1, σ0.length ≤ q.2) ∧
        ∀ q ∈ st.2.2.2, σ0.length ≤ q.2)
      (innerStepH set_key (lookupR acc.2.1 set_key))
      (rec acc.1
        ((acc.2.2.1.filter (fun k => k ≠ set_key)).map
          (fun k => (k, lookupR acc.2.1 k)))).2
      ((rec acc.1
        ((acc.2.2.1.filter (fun k => k ≠ set_key)).map
          (fun k => (k, lookupR acc.2.1 k)))).1, acc.2.1, acc.2.2.1, acc.2.2.2)
      ⟨⟨τ ++ τr, by rw [hτr, hτ]; simp⟩, rfl, h2, h3⟩
      (by
        intro x b hx hb
        obtain ⟨x1, x2, x3, x4⟩ := hx
        obtain ⟨s1, s2, s3, s4⟩ := innerStepH_frame σ0 set_key
          (lookupR acc.2.1 set_key) x b x1 x3 x4
        exact ⟨s1, by rw [s2, x2], s3, s4⟩)
    obtain ⟨f1, f2, f3, f4⟩ := hfold
    obtain ⟨t1, t2, t3, t4⟩ := outerTailH_frame σ0 set_key
      ((rec acc.1
        ((acc.2.2.1.filter (fun k => k ≠ set_key)).map
          (fun k => (k, lookupR acc.2.1 k)))).2.foldl
        (innerStepH set_key (lookupR acc.2.1 set_key))
        ((rec acc.1
          ((acc.2.2.1.filter (fun k => k ≠ set_key)).map
            (fun k => (k, lookupR acc.2.1 k)))).1, acc.2.1, acc.2.2.1,
          acc.2.2.2))
      (by rw [f2]; exact hkey) f1 f3 f4
    exact ⟨t1, by rw [t2]; exact f2, t3, t4⟩

/-- The heap engine extends the store it is given — every pre-existing cell
is untouched — and every yielded reference is fresh. -/
theorem eulerGenH_frame : ∀ (fuel : Nat) (σ : Store E) (hs : HSets K),
    (∃ τ, (eulerGenH fuel σ hs).1 = σ ++ τ) ∧
    ∀ p ∈ (eulerGenH fuel σ hs).2, σ.length ≤ p.2 := by
  intro fuel
  induction fuel with
  | zero =>
    intro σ hs
    exact ⟨⟨[], by simp [eulerGenH]⟩, by intro p hp; simp [eulerGenH] at hp⟩
  | succ fuel ih =>
    intro σ hs
    rw [eulerGenH]
    obtain ⟨c1, c2, c3⟩ := copyAllH_frame (fun l => l) σ hs
    obtain ⟨v1, v2, v3⟩ := validateDictH_frame σ (deepcopyH σ hs).1
      (deepcopyH σ hs).2 c1 c3
    have hhead : ∀ p ∈ (match clearedKeysH (validateDictH (deepcopyH σ hs).1
        (deepcopyH σ hs).2).1 (validateDictH (deepcopyH σ hs).1
        (deepcopyH σ hs).2).2 with
      | [k] => [([k], firstRef (validateDictH (deepcopyH σ hs).1
          (deepcopyH σ hs).2).2)]
      | _ => ([] : List (List K × Nat))), σ.length ≤ p.2 := by
      intro p hp
      rcases hks : clearedKeysH (validateDictH (deepcopyH σ hs).1
          (deepcopyH σ hs).2).1 (validateDictH (deepcopyH σ hs).1
          (deepcopyH σ hs).2).2 with _ | ⟨k, _ | _⟩ <;> rw [hks] at hp
      · simp at hp
      · simp only [List.mem_singleton] at hp
        rw [hp]
        show σ.length ≤ firstRef (validateDictH (deepcopyH σ hs).1
          (deepcopyH σ hs).2).2
        rcases hv : (validateDictH (deepcopyH σ hs).1 (deepcopyH σ hs).2).2
          with _ | ⟨q, t⟩
        · exfalso
          rw [clearedKeysH, hv] at hks
          simp at hks
        · rw [firstRef]
          have : q ∈ (validateDictH (deepcopyH σ hs).1 (deepcopyH σ hs).2).2 := by
            rw [hv]; exact List.mem_cons_self q t
          exact v3 q this
      · simp at hp
    have hfold := foldl_inv
      (fun st : Store E × HSets K × List K × List (List K × Nat) =>
        (∃ τ2, st.1 = σ ++ τ2) ∧
        st.2.1.map Prod.fst
          = (validateDictH (deepcopyH σ hs).1 (deepcopyH σ hs).2).2.map
              Prod.fst ∧
        (∀ q ∈ st.2.1, σ.length ≤ q.2) ∧
        ∀ q ∈ st.2.2.2, σ.length ≤ q.2)
      (outerStepH (eulerGenH fuel))
      (clearedKeysH (validateDictH (deepcopyH σ hs).1 (deepcopyH σ hs).2).1
        (validateDictH (deepcopyH σ hs).1 (deepcopyH σ hs).2).2)
      ((validateDictH (deepcopyH σ hs).1 (deepcopyH σ hs).2).1,
        (validateDictH (deepcopyH σ hs).1 (deepcopyH σ hs).2).2,
        clearedKeysH (validateDictH (deepcopyH σ hs).1 (deepcopyH σ hs).2).1
          (validateDictH (deepcopyH σ hs).1 (deepcopyH σ hs).2).2,
        (match clearedKeysH (validateDictH (deepcopyH σ hs).1
            (deepcopyH σ hs).2).1 (validateDictH (deepcopyH σ hs).1
            (deepcopyH σ hs).2).2 with
          | [k] => [([k], firstRef (validateDictH (deepcopyH σ hs).1
              (deepcopyH σ hs).2).2)]
          | _ => ([] : List (List K × Nat))))
      ⟨v1, rfl, v3, hhead⟩
      (by
        intro x b hx hb
        obtain ⟨x1, x2, x3, x4⟩ := hx
        have hbk : b ∈ x.2.1.map Prod.fst := by
          rw [x2]
          have : b ∈ (validateDictH (deepcopyH σ hs).1
              (deepcopyH σ hs).2).2.map Prod.fst := by
            have hsub := hb
            rw [clearedKeysH] at hsub
            simp only [List.mem_map] at hsub ⊢
            obtain ⟨q, hq, hqk⟩ := hsub
            exact ⟨q, List.mem_of_mem_filter hq, hqk⟩
          exact this
        obtain ⟨s1, s2, s3, s4⟩ := outerStepH_frame (eulerGenH fuel) ih σ x b
          hbk x1 x3 x4
        exact ⟨s1, by rw [s2, x2], s3, s4⟩)
    obtain ⟨f1, -, -, f4⟩ := hfold
    exact ⟨f1, f4⟩

/-- A cell below the original store length reads the same after an
append-only extension. -/
theorem readH_append {σ τ : Store E} {r : Nat} (hr : r < σ.length) :
    readH (σ ++ τ) r = readH σ r := by
  rw [readH, readH, List.getD_append σ τ [] r hr]

/-- **C9** — no caller aliasing (heap model: cells are the mutable list
objects, references are pointers, and every list-building expression of the
traced code allocates a fresh cell):  running `euler_generator` to
exhaustion from any store extends it without touching any pre-existing
cell — so every list the caller's dict references reads exactly as before
the call — and every yielded elements-list is a reference strictly above
the caller's store, hence shares no mutable object with the caller; the
same holds for the values of the dict `euler` builds from the yields. -/
theorem C9_no_caller_aliasing (fuel : Nat) (σ : Store E) (hs : HSets K)
    (r : Nat) (hr : r < σ.length) :
    readH (eulerGenH fuel σ hs).1 r = readH σ r ∧
    (∀ p ∈ (eulerGenH fuel σ hs).2, p.2 ≠ r) ∧
    ∀ p ∈ pyDict (eulerGenH fuel σ hs).2, p.2 ≠ r := by
  obtain ⟨⟨τ, hτ⟩, hfresh⟩ := eulerGenH_frame fuel σ hs
  refine ⟨by rw [hτ]; exact readH_append hr, ?_, ?_⟩
  · intro p hp
    have := hfresh p hp
    omega
  · intro p hp
    have := hfresh p (mem_pyDict_sub hp)
    omega

/-- Witness for C9 on a concrete caller store and dict. -/
theorem C9_no_caller_aliasing_witness :
    (0 < ([[1, 2], [2, 3]] : Store Nat).length) ∧
    (readH (eulerGenH 3 ([[1, 2], [2, 3]] : Store Nat)
        ([('a', 0), ('b', 1)] : HSets Char)).1 0
      = readH ([[1, 2], [2, 3]] : Store Nat) 0 ∧
    (∀ p ∈ (eulerGenH 3 ([[1, 2], [2, 3]] : Store Nat)
        ([('a', 0), ('b', 1)] : HSets Char)).2, p.2 ≠ 0) ∧
    ∀ p ∈ pyDict (eulerGenH 3 ([[1, 2], [2, 3]] : Store Nat)
        ([('a', 0), ('b', 1)] : HSets Char)).2, p.2 ≠ 0) :=
  ⟨by decide,
    C9_no_caller_aliasing 3 ([[1, 2], [2, 3]] : Store Nat)
      ([('a', 0), ('b', 1)] : HSets Char) 0 (by decide)⟩

end Eule

